import Mathlib

/-
Verification of the free-list allocator (allocator.h / allocator.cpp).

The allocator manages a single 1 MiB heap buffer.  Each block begins with a
BlockHeader { size_t size; bool is_free; BlockHeader* next; }.  We model the
heap at header granularity:

* `blocks`   is the address-ordered sequence of block headers currently
  reachable by the address walk from the start of the heap (offset of the
  header inside `heap_buffer`, total block size, free flag);
* `freeList` is the sequence of header offsets obtained by following the
  `next` links from the `free_list` head (the `next` fields themselves are
  represented by the list structure);
* `stale`    records offsets of headers that were swallowed by coalescing.
  The C code never clears the `is_free` byte of an absorbed header
  (`remove_from_free_list` only unlinks, and the backward merge just adds
  sizes), so the bytes at such an offset still read as a header whose
  `is_free` is true; `my_free`'s double-free check can observe them.

Pointer values are offsets relative to `heap_buffer`; a user pointer `p`
corresponds to the block header at offset `p - metadataSize`.  `size_t`
arithmetic is modelled as `Nat` with explicit reduction modulo `2 ^ 64`
where the C computation can wrap.
-/

set_option maxHeartbeats 1000000

namespace FreeListAlloc

/-- Alignment requirement, `const size_t ALIGN_SIZE = 8;`. -/
def ALIGN_SIZE : Nat := 8

/-- Heap capacity, `const size_t HEAP_SIZE = 1024 * 1024;`. -/
def HEAP_SIZE : Nat := 1024 * 1024

/-- Modulus of the C `size_t` type (64-bit build). -/
def U64 : Nat := 2 ^ 64

/-- Size of `BlockHeader` on an LP64/LLP64 target: `size_t size` at offset 0,
`bool is_free` at offset 8 (padded), `BlockHeader* next` at offset 16,
so `sizeof(BlockHeader) = 24`. -/
def metadataSize : Nat := 24

/-- `align_size`: `(size + ALIGN_SIZE - 1) & ~(ALIGN_SIZE - 1)` in `size_t`
arithmetic.  Masking off the low three bits of a 64-bit value is division
and multiplication by 8. -/
def align_size (size : Nat) : Nat :=
  (size + ALIGN_SIZE - 1) % U64 / ALIGN_SIZE * ALIGN_SIZE

/-- `get_min_block_size()`: `align_size(sizeof(BlockHeader) + 1)`. -/
def get_min_block_size : Nat := align_size (metadataSize + 1)

/-- One `BlockHeader` as laid down in the heap: its offset inside
`heap_buffer`, its `size` field and its `is_free` field.  The `next` field
is represented by the position of the offset inside `AllocState.freeList`. -/
structure Block where
  addr : Nat
  size : Nat
  isFree : Bool
deriving Repr, DecidableEq

/-- The allocator state: the address-ordered headers, the free list as the
chain of offsets hanging off the `free_list` global, and the offsets of
absorbed headers whose bytes still look like a free header (see the file
comment). -/
structure AllocState where
  blocks : List Block
  freeList : List Nat
  stale : List Nat
deriving Repr, DecidableEq

/-- `init_allocator()`: one free block covering the whole heap, free list
containing exactly that block. -/
def initState : AllocState :=
  { blocks := [⟨0, HEAP_SIZE, true⟩], freeList := [0], stale := [] }

/-- Reading the header at a given offset: the first listed block at that
offset (offsets are unique in any well-formed state). -/
def findBlock (bs : List Block) (a : Nat) : Option Block :=
  bs.find? (fun b => b.addr == a)

/-- The `size` field read at an offset (`0` when no header is recorded
there; such reads only happen in states this model cannot describe). -/
def blockSizeAt (bs : List Block) (a : Nat) : Nat :=
  ((findBlock bs a).map Block.size).getD 0

/-- Writing the `is_free` field of the header at offset `a`. -/
def setFree (a : Nat) (v : Bool) : List Block → List Block
  | [] => []
  | b :: bs => if b.addr = a then { b with isFree := v } :: bs else b :: setFree a v bs

/-- `block->size += d` for the header at offset `a`. -/
def growBlock (a d : Nat) : List Block → List Block
  | [] => []
  | b :: bs => if b.addr = a then { b with size := b.size + d } :: bs else b :: growBlock a d bs

/-- Dropping the header at offset `a` from the address walk (it has been
absorbed into its predecessor, whose `size` now covers its span). -/
def eraseBlock (a : Nat) : List Block → List Block
  | [] => []
  | b :: bs => if b.addr = a then bs else b :: eraseBlock a bs

/-- `split_block`'s heap writes: shrink the block at `a` to `total` bytes and
lay a fresh free header at `a + total` owning the remainder.  When the C
computation of `total_size` wrapped to `0`, `new_block` aliases `block`
itself and the field writes collapse onto the single header at `a`
(final values: `size = total = 0`, `is_free = true`). -/
def splitBlocks (a total : Nat) : List Block → List Block
  | [] => []
  | b :: bs =>
    if b.addr = a then
      if total = 0 then ⟨a, total, true⟩ :: bs
      else { b with size := total } :: ⟨a + total, b.size - total, true⟩ :: bs
    else b :: splitBlocks a total bs

/-- `new_block->next = block->next; block->next = new_block;`: splice `n`
into the free list right after the entry `a`. -/
def insertAfter (a n : Nat) : List Nat → List Nat
  | [] => []
  | x :: xs => if x = a then x :: n :: xs else x :: insertAfter a n xs

/-- `remove_from_free_list`: unlink the first list entry equal to `a`
(head check, then predecessor scan); a missing entry leaves the list
unchanged. -/
def remove_from_free_list (a : Nat) : List Nat → List Nat
  | [] => []
  | x :: xs => if x = a then xs else x :: remove_from_free_list a xs

/-- The first-fit scan of `my_malloc`: walk the free list and return the
first entry whose header's `size` is at least `total`. -/
def firstFit (bs : List Block) (total : Nat) : List Nat → Option Nat
  | [] => none
  | a :: rest => if total ≤ blockSizeAt bs a then some a else firstFit bs total rest

/-- `split_block(block, requested_size)` acting on the state; the chosen
block keeps its address, so only the state change matters.  Mirrors the C
guard `block->size < total_size + min_remaining` (in `size_t` arithmetic). -/
def split_block (st : AllocState) (a : Nat) (requested : Nat) : AllocState :=
  let total := (metadataSize + align_size requested) % U64
  if blockSizeAt st.blocks a < (total + get_min_block_size) % U64 then st
  else
    { st with
      blocks := splitBlocks a total st.blocks
      freeList := insertAfter a (a + total) st.freeList }

/-- `my_malloc`: first-fit search, optional split, unlink of the chosen
block (its free-list slot is taken over by the split remainder when one was
spliced in right after it), mark used, return the data pointer
`block + sizeof(BlockHeader)`. -/
def my_malloc (st : AllocState) (size : Nat) : AllocState × Option Nat :=
  if size = 0 then (st, none)
  else
    let total := (metadataSize + align_size size) % U64
    match firstFit st.blocks total st.freeList with
    | none => (st, none)
    | some a =>
      let st1 := split_block st a size
      ({ st1 with
          blocks := setFree a false st1.blocks
          freeList := remove_from_free_list a st1.freeList },
       some (a + metadataSize))

/-- The backward scan of `coalesce_block`: walk the heap from the region
start, block by block, until a block ending exactly at `target` is found
(returned when free) or the scan reaches or passes `target`.  The blocks
list is traversed in the same order as the C offset walk reads headers. -/
def findPrevFree (target : Nat) : List Block → Option Nat
  | [] => none
  | b :: bs =>
    if b.addr < target then
      if b.addr + b.size = target ∧ b.isFree then some b.addr
      else if target ≤ b.addr + b.size then none
      else findPrevFree target bs
    else none

/-- The forward-merge half of `coalesce_block`: if the block ending address
is still inside the region and the header there is free, unlink that
successor from the free list and absorb its size.  When the freed block's
size is `0` the "successor" header is the block itself and no header
disappears from the walk. -/
def coalesce_fwd (st : AllocState) (a : Nat) : AllocState :=
  let bsize := blockSizeAt st.blocks a
  let blockEnd := a + bsize
  if blockEnd < HEAP_SIZE then
    match findBlock st.blocks blockEnd with
    | some nb =>
      if nb.isFree then
        { st with
          blocks :=
            if blockEnd = a then growBlock a nb.size st.blocks
            else eraseBlock blockEnd (growBlock a nb.size st.blocks)
          freeList := remove_from_free_list blockEnd st.freeList
          stale := blockEnd :: st.stale }
      else st
    | none => st
  else st

/-- `coalesce_block(block)`: forward merge with a free successor
(`coalesce_fwd`), then backward merge into a free predecessor (the
predecessor grows, the freed header is absorbed and `nullptr` is returned
so the caller skips the free-list insertion). -/
def coalesce_block (st : AllocState) (a : Nat) : AllocState × Option Nat :=
  let st1 := coalesce_fwd st a
  match findPrevFree a st1.blocks with
  | some pa =>
    ({ st1 with
        blocks := eraseBlock a (growBlock pa (blockSizeAt st1.blocks a) st1.blocks)
        stale := a :: st1.stale },
     none)
  | none => (st1, some a)

/-- The error reports `my_free` can emit on `std::cerr`.  `unmodeledRead`
marks the one path this model cannot follow: a pointer inside the heap
bounds whose recovered header offset carries no header, where the C code
reinterprets arbitrary bytes as a `BlockHeader`. -/
inductive FreeError where
  | invalidPtr
  | doubleFree
  | unmodeledRead
deriving Repr, DecidableEq

/-- `my_free(ptr)`: null is a no-op; recover the header at `ptr - 24`;
bounds-check it (`is_valid_ptr`); reject a header already marked free
(double free); otherwise mark it free and coalesce, inserting the surviving
block at the free-list head unless it was absorbed into a predecessor.
A header offset in `stale` still reads `is_free = true` (see `AllocState`). -/
def my_free (st : AllocState) (ptr : Option Int) : AllocState × Option FreeError :=
  match ptr with
  | none => (st, none)
  | some p =>
    let ba : Int := p - (metadataSize : Int)
    if 0 ≤ ba ∧ ba < (HEAP_SIZE : Int) then
      let a := ba.toNat
      match findBlock st.blocks a with
      | some b =>
        if b.isFree then (st, some FreeError.doubleFree)
        else
          let st1 := { st with blocks := setFree a true st.blocks }
          match coalesce_block st1 a with
          | (st2, some ins) => ({ st2 with freeList := ins :: st2.freeList }, none)
          | (st2, none) => (st2, none)
      | none =>
        if a ∈ st.stale then (st, some FreeError.doubleFree)
        else (st, some FreeError.unmodeledRead)
    else (st, some FreeError.invalidPtr)

/-- `get_free_memory()`: walk the free list summing `current->size -
sizeof(BlockHeader)` in `size_t` arithmetic (subtraction and accumulation
wrap modulo `2 ^ 64`). -/
def get_free_memory (st : AllocState) : Nat :=
  st.freeList.foldl
    (fun acc a => (acc + (blockSizeAt st.blocks a + (U64 - metadataSize)) % U64) % U64) 0

/-- `get_fragmentation_count()`: the number of free-list entries. -/
def get_fragmentation_count (st : AllocState) : Nat :=
  st.freeList.length

/-- The free accumulator of the address-ordered heap walk (the walk of
`get_used_memory` / `print_heap_state` restricted to free blocks): visit the
blocks in address order and sum `size - sizeof(BlockHeader)` over the free
ones. -/
def heapWalkFreeSum : List Block → Nat
  | [] => 0
  | b :: bs => (if b.isFree then b.size - metadataSize else 0) + heapWalkFreeSum bs

/-- Outcome of a fuelled diagnostic walk:  `done` - the loop reached the
region end; `aborted` - the corruption guard fired and broke the loop;
`stuck` - the walk reached an offset carrying no header (the C code would
read arbitrary bytes there); `fuelOut` - the given step budget was not
enough, i.e. the walk is still running. -/
inductive WalkResult where
  | done (acc : Nat)
  | aborted (steps : Nat)
  | stuck
  | fuelOut
deriving Repr, DecidableEq

/-- The loop of `get_used_memory()`, step-indexed: `while (current <
heap_end) { used += ...; current += block->size; }`.  The loop body has no
corruption guard of any kind. -/
def usedWalk (bs : List Block) : Nat → Nat → Nat → WalkResult
  | 0, _, _ => WalkResult.fuelOut
  | fuel + 1, pos, acc =>
    if pos < HEAP_SIZE then
      match findBlock bs pos with
      | some b =>
        usedWalk bs fuel (pos + b.size)
          (acc + (if b.isFree then 0 else (b.size + (U64 - metadataSize)) % U64))
      | none => WalkResult.stuck
    else WalkResult.done acc

/-- The block-layout loop of `print_heap_state()`, step-indexed: it advances
like the heap walk but increments `block_num` each iteration and breaks out
with an error message as soon as `block->size == 0 || block_num > 10000`. -/
def dumpWalk (bs : List Block) : Nat → Nat → Nat → WalkResult
  | 0, _, _ => WalkResult.fuelOut
  | fuel + 1, pos, blockNum =>
    if pos < HEAP_SIZE then
      match findBlock bs pos with
      | some b =>
        if b.size = 0 ∨ blockNum + 1 > 10000 then WalkResult.aborted (blockNum + 1)
        else dumpWalk bs fuel (pos + b.size) (blockNum + 1)
      | none => WalkResult.stuck
    else WalkResult.done blockNum

/-- Well-formed header chain: starting at offset `a` the listed blocks tile
the address range up to `e` without gaps, each with a size that is a
nonzero multiple of the alignment unit and at least the header size. -/
def chainFrom (a : Nat) : List Block → Nat → Prop
  | [], e => a = e
  | b :: bs, e =>
    b.addr = a ∧ metadataSize ≤ b.size ∧ b.size % ALIGN_SIZE = 0 ∧
      chainFrom (a + b.size) bs e

/-- The heap partition invariant: the blocks tile `[0, HEAP_SIZE)`. -/
def blocksWF (bs : List Block) : Prop := chainFrom 0 bs HEAP_SIZE

/-- No two blocks adjacent in address order are both free. -/
def noAdjFree (bs : List Block) : Prop :=
  List.Chain' (fun x y => ¬(x.isFree = true ∧ y.isFree = true)) bs

/-- The offsets of the free blocks, in address order. -/
def freeAddrs (bs : List Block) : List Nat :=
  (bs.filter (fun b => b.isFree)).map Block.addr

/-- The allocator invariant: well-formed partition, no adjacent free blocks,
and the free list is exactly the set of free blocks (in some order). -/
def Inv (st : AllocState) : Prop :=
  blocksWF st.blocks ∧ noAdjFree st.blocks ∧ st.freeList.Perm (freeAddrs st.blocks)

/-- Request sizes whose `total_size = sizeof(BlockHeader) + align_size(size)`
computation does not wrap below the header size.  For the 24 sizes in
`[2^64 - 31, 2^64 - 8]` the wrapped total is 0, 8 or 16 and `split_block`
then writes the new header on top of the original block's own header; the
partial overlaps (totals 8 and 16) mix header fields bytewise, which this
header-granular model cannot express, so those sizes are kept out of the
step relation (the aliasing total 0 is still modelled faithfully and is
used below to refute two claims). -/
def size_ok (s : Nat) : Prop :=
  s < U64 ∧ metadataSize ≤ (metadataSize + align_size s) % U64

/-- Pointers whose release the model can follow exactly: null, a pointer
whose recovered header offset is out of bounds (rejected before any read),
or a pointer recovering an offset that actually carries a header - a live
one or an absorbed (stale) one.  For any other in-bounds pointer the C code
reinterprets arbitrary interior bytes as a header, which is outside this
model. -/
def free_ok (st : AllocState) (ptr : Option Int) : Prop :=
  match ptr with
  | none => True
  | some p =>
    let ba : Int := p - (metadataSize : Int)
    ba < 0 ∨ (HEAP_SIZE : Int) ≤ ba ∨
      ba.toNat ∈ st.blocks.map Block.addr ∨ ba.toNat ∈ st.stale

/-- States reachable from `init_allocator()` by `my_malloc` / `my_free`
calls the model follows exactly (see `size_ok` and `free_ok`). -/
inductive Reachable : AllocState → Prop where
  | init : Reachable initState
  | malloc (st : AllocState) (s : Nat) :
      Reachable st → size_ok s → Reachable (my_malloc st s).1
  | free (st : AllocState) (p : Option Int) :
      Reachable st → free_ok st p → Reachable (my_free st p).1

def decChainFrom : (l : List Block) → (a e : Nat) → Decidable (chainFrom a l e)
  | [], a, e => inferInstanceAs (Decidable (a = e))
  | b :: bs, a, e =>
    @instDecidableAnd _ _ inferInstance
      (@instDecidableAnd _ _ inferInstance
        (@instDecidableAnd _ _ inferInstance (decChainFrom bs (a + b.size) e)))

instance (a : Nat) (l : List Block) (e : Nat) : Decidable (chainFrom a l e) :=
  decChainFrom l a e

instance (bs : List Block) : Decidable (blocksWF bs) :=
  inferInstanceAs (Decidable (chainFrom 0 bs HEAP_SIZE))

def decNoAdjFree : (bs : List Block) → Decidable (noAdjFree bs)
  | [] => isTrue List.chain'_nil
  | [b] => isTrue (List.chain'_singleton b)
  | a :: b :: l =>
    @decidable_of_iff _ _ List.chain'_cons.symm
      (@instDecidableAnd _ _ inferInstance (decNoAdjFree (b :: l)))

instance (bs : List Block) : Decidable (noAdjFree bs) :=
  decNoAdjFree bs

instance (st : AllocState) : Decidable (Inv st) :=
  inferInstanceAs (Decidable (blocksWF st.blocks ∧ noAdjFree st.blocks ∧
    st.freeList.Perm (freeAddrs st.blocks)))

instance (s : Nat) : Decidable (size_ok s) :=
  inferInstanceAs (Decidable
    (s < U64 ∧ metadataSize ≤ (metadataSize + align_size s) % U64))

def decFreeOk : (st : AllocState) → (p : Option Int) → Decidable (free_ok st p)
  | _, none => inferInstanceAs (Decidable True)
  | st, some q =>
    inferInstanceAs (Decidable
      (q - (metadataSize : Int) < 0 ∨
        (HEAP_SIZE : Int) ≤ q - (metadataSize : Int) ∨
        (q - (metadataSize : Int)).toNat ∈ st.blocks.map Block.addr ∨
        (q - (metadataSize : Int)).toNat ∈ st.stale))

instance (st : AllocState) (p : Option Int) : Decidable (free_ok st p) :=
  decFreeOk st p

/-! ### Arithmetic facts about alignment -/

theorem align_size_mod (s : Nat) : align_size s % ALIGN_SIZE = 0 := by
  unfold align_size
  exact Nat.mul_mod_left _ _

theorem align_size_le_max (s : Nat) : align_size s ≤ U64 - ALIGN_SIZE := by
  unfold align_size
  have h1 : (s + ALIGN_SIZE - 1) % U64 ≤ U64 - 1 := by
    have := Nat.mod_lt (s + ALIGN_SIZE - 1) (show 0 < U64 by decide)
    omega
  have h2 : (s + ALIGN_SIZE - 1) % U64 / ALIGN_SIZE ≤ (U64 - 1) / ALIGN_SIZE :=
    Nat.div_le_div_right h1
  calc (s + ALIGN_SIZE - 1) % U64 / ALIGN_SIZE * ALIGN_SIZE
      ≤ (U64 - 1) / ALIGN_SIZE * ALIGN_SIZE := Nat.mul_le_mul_right _ h2
    _ = U64 - ALIGN_SIZE := by decide

theorem align_size_small (s : Nat) (h : s + ALIGN_SIZE - 1 < U64) :
    align_size s = (s + ALIGN_SIZE - 1) / ALIGN_SIZE * ALIGN_SIZE := by
  unfold align_size
  rw [Nat.mod_eq_of_lt h]

theorem align_size_ge (s : Nat) (h1 : 1 ≤ s) (h2 : s + ALIGN_SIZE - 1 < U64) :
    ALIGN_SIZE ≤ align_size s := by
  rw [align_size_small s h2]
  have hq : 1 ≤ (s + ALIGN_SIZE - 1) / ALIGN_SIZE := by
    rw [Nat.le_div_iff_mul_le (by decide : 0 < ALIGN_SIZE)]
    unfold ALIGN_SIZE
    omega
  calc ALIGN_SIZE = 1 * ALIGN_SIZE := (Nat.one_mul _).symm
    _ ≤ (s + ALIGN_SIZE - 1) / ALIGN_SIZE * ALIGN_SIZE := Nat.mul_le_mul_right _ hq

theorem align_size_le (s : Nat) (h2 : s + ALIGN_SIZE - 1 < U64) :
    align_size s ≤ s + ALIGN_SIZE - 1 := by
  rw [align_size_small s h2]
  exact Nat.div_mul_le_self _ _

theorem align_size_lower (s : Nat) (h2 : s + ALIGN_SIZE - 1 < U64) :
    s ≤ align_size s := by
  rw [align_size_small s h2]
  have hdm := Nat.div_add_mod (s + ALIGN_SIZE - 1) ALIGN_SIZE
  have hm := Nat.mod_lt (s + ALIGN_SIZE - 1) (show 0 < ALIGN_SIZE by decide)
  unfold ALIGN_SIZE at *
  omega

theorem min_block_eq : get_min_block_size = 32 := by decide

/-- Under `size_ok` the C `total_size` computation does not wrap. -/
theorem size_ok_total (s : Nat) (h : size_ok s) :
    (metadataSize + align_size s) % U64 = metadataSize + align_size s := by
  rcases h with ⟨-, h2⟩
  by_cases hlt : metadataSize + align_size s < U64
  · exact Nat.mod_eq_of_lt hlt
  · exfalso
    have hmax := align_size_le_max s
    have : (metadataSize + align_size s) % U64 = metadataSize + align_size s - U64 := by
      have hlt2 : metadataSize + align_size s < 2 * U64 := by
        unfold metadataSize U64 ALIGN_SIZE at *; omega
      have := Nat.mod_eq_sub_mod (show U64 ≤ metadataSize + align_size s by omega)
      rw [this, Nat.mod_eq_of_lt (by omega)]
    unfold metadataSize U64 ALIGN_SIZE at *
    omega

/-! ### Chain (heap partition) facts -/

theorem chainFrom_nil (a e : Nat) : chainFrom a ([] : List Block) e ↔ a = e := Iff.rfl

theorem chainFrom_cons (a e : Nat) (b : Block) (bs : List Block) :
    chainFrom a (b :: bs) e ↔
      b.addr = a ∧ metadataSize ≤ b.size ∧ b.size % ALIGN_SIZE = 0 ∧
        chainFrom (a + b.size) bs e := Iff.rfl

theorem chainFrom_append (l1 l2 : List Block) (a e : Nat) :
    chainFrom a (l1 ++ l2) e ↔ ∃ m, chainFrom a l1 m ∧ chainFrom m l2 e := by
  induction l1 generalizing a with
  | nil =>
    simp only [List.nil_append, chainFrom_nil]
    constructor
    · intro h; exact ⟨a, rfl, h⟩
    · rintro ⟨m, rfl, h⟩; exact h
  | cons b bs ih =>
    simp only [List.cons_append, chainFrom_cons, ih]
    constructor
    · rintro ⟨h1, h2, h3, m, h4, h5⟩; exact ⟨m, ⟨h1, h2, h3, h4⟩, h5⟩
    · rintro ⟨m, ⟨h1, h2, h3, h4⟩, h5⟩; exact ⟨h1, h2, h3, m, h4, h5⟩

theorem chainFrom_le (l : List Block) (a e : Nat) (h : chainFrom a l e) : a ≤ e := by
  induction l generalizing a with
  | nil => exact Nat.le_of_eq h
  | cons b bs ih =>
    rcases h with ⟨h1, h2, h3, h4⟩
    have := ih (a + b.size) h4
    omega

theorem chainFrom_mem_bounds (l : List Block) (a e : Nat) (h : chainFrom a l e)
    (b : Block) (hb : b ∈ l) : a ≤ b.addr ∧ b.addr + b.size ≤ e := by
  induction l generalizing a with
  | nil => cases hb
  | cons c cs ih =>
    rcases h with ⟨h1, h2, h3, h4⟩
    rcases List.mem_cons.mp hb with rfl | hb2
    · have := chainFrom_le cs _ _ h4
      omega
    · have := ih (a + c.size) h4 hb2
      omega

theorem chainFrom_size_pos (l : List Block) (a e : Nat) (h : chainFrom a l e)
    (b : Block) (hb : b ∈ l) : metadataSize ≤ b.size ∧ b.size % ALIGN_SIZE = 0 := by
  induction l generalizing a with
  | nil => cases hb
  | cons c cs ih =>
    rcases h with ⟨h1, h2, h3, h4⟩
    rcases List.mem_cons.mp hb with rfl | hb2
    · exact ⟨h2, h3⟩
    · exact ih (a + c.size) h4 hb2

theorem chainFrom_addr_mod (l : List Block) (a e : Nat) (h : chainFrom a l e)
    (ha : a % ALIGN_SIZE = 0) (b : Block) (hb : b ∈ l) : b.addr % ALIGN_SIZE = 0 := by
  induction l generalizing a with
  | nil => cases hb
  | cons c cs ih =>
    rcases h with ⟨h1, h2, h3, h4⟩
    rcases List.mem_cons.mp hb with rfl | hb2
    · rw [h1]; exact ha
    · refine ih (a + c.size) h4 ?_ hb2
      rw [Nat.add_mod, ha, h3]
      simp

theorem chainFrom_nodup (l : List Block) (a e : Nat) (h : chainFrom a l e) :
    (l.map Block.addr).Nodup := by
  induction l generalizing a with
  | nil => exact List.nodup_nil
  | cons b bs ih =>
    rcases h with ⟨h1, h2, h3, h4⟩
    refine List.nodup_cons.mpr ⟨?_, ih (a + b.size) h4⟩
    intro hmem
    rcases List.mem_map.mp hmem with ⟨c, hc, hca⟩
    have := chainFrom_mem_bounds bs (a + b.size) e h4 c hc
    unfold metadataSize ALIGN_SIZE at *
    omega

/-! ### Localization of the header operations -/

theorem findBlock_append (pre post : List Block) (b : Block) (a : Nat)
    (hb : b.addr = a) (hpre : a ∉ pre.map Block.addr) :
    findBlock (pre ++ b :: post) a = some b := by
  induction pre with
  | nil =>
    simp only [List.nil_append, findBlock]
    rw [List.find?_cons_of_pos]
    simp [hb]
  | cons c cs ih =>
    simp only [List.map_cons, List.mem_cons, not_or] at hpre
    simp only [List.cons_append, findBlock] at *
    rw [List.find?_cons_of_neg]
    · exact ih hpre.2
    · simp [Ne.symm hpre.1]

theorem findBlock_not_mem (l : List Block) (a : Nat) (h : a ∉ l.map Block.addr) :
    findBlock l a = none := by
  induction l with
  | nil => rfl
  | cons c cs ih =>
    simp only [List.map_cons, List.mem_cons, not_or] at h
    simp only [findBlock] at *
    rw [List.find?_cons_of_neg]
    · exact ih h.2
    · simp [Ne.symm h.1]

theorem blockSizeAt_append (pre post : List Block) (b : Block) (a : Nat)
    (hb : b.addr = a) (hpre : a ∉ pre.map Block.addr) :
    blockSizeAt (pre ++ b :: post) a = b.size := by
  rw [blockSizeAt, findBlock_append pre post b a hb hpre]
  rfl

theorem setFree_append (pre post : List Block) (b : Block) (a : Nat) (v : Bool)
    (hb : b.addr = a) (hpre : a ∉ pre.map Block.addr) :
    setFree a v (pre ++ b :: post) = pre ++ { b with isFree := v } :: post := by
  induction pre with
  | nil => simp [setFree, hb]
  | cons c cs ih =>
    simp only [List.map_cons, List.mem_cons, not_or] at hpre
    simp [setFree, Ne.symm hpre.1, ih hpre.2]

theorem growBlock_append (pre post : List Block) (b : Block) (a d : Nat)
    (hb : b.addr = a) (hpre : a ∉ pre.map Block.addr) :
    growBlock a d (pre ++ b :: post) = pre ++ { b with size := b.size + d } :: post := by
  induction pre with
  | nil => simp [growBlock, hb]
  | cons c cs ih =>
    simp only [List.map_cons, List.mem_cons, not_or] at hpre
    simp [growBlock, Ne.symm hpre.1, ih hpre.2]

theorem eraseBlock_append (pre post : List Block) (b : Block) (a : Nat)
    (hb : b.addr = a) (hpre : a ∉ pre.map Block.addr) :
    eraseBlock a (pre ++ b :: post) = pre ++ post := by
  induction pre with
  | nil => simp [eraseBlock, hb]
  | cons c cs ih =>
    simp only [List.map_cons, List.mem_cons, not_or] at hpre
    simp [eraseBlock, Ne.symm hpre.1, ih hpre.2]

theorem splitBlocks_append (pre post : List Block) (b : Block) (a total : Nat)
    (hb : b.addr = a) (hpre : a ∉ pre.map Block.addr) (ht : total ≠ 0) :
    splitBlocks a total (pre ++ b :: post) =
      pre ++ { b with size := total } :: ⟨a + total, b.size - total, true⟩ :: post := by
  induction pre with
  | nil => simp [splitBlocks, hb, ht]
  | cons c cs ih =>
    simp only [List.map_cons, List.mem_cons, not_or] at hpre
    simp [splitBlocks, Ne.symm hpre.1, ih hpre.2]

theorem remove_eq_erase (a : Nat) (l : List Nat) :
    remove_from_free_list a l = l.erase a := by
  induction l with
  | nil => rfl
  | cons x xs ih =>
    simp only [remove_from_free_list, List.erase_cons, beq_iff_eq, ih]

theorem insertAfter_erase_perm (a n : Nat) (l : List Nat) (h : a ∈ l) :
    ((insertAfter a n l).erase a).Perm (n :: l.erase a) := by
  induction l with
  | nil => cases h
  | cons x xs ih =>
    by_cases hx : x = a
    · subst hx
      simp [insertAfter, List.erase_cons]
    · rcases List.mem_cons.mp h with h1 | h2
      · exact absurd h1.symm hx
      · have hxa : (x == a) = false := by simp [hx]
        simp only [insertAfter, if_neg hx, List.erase_cons, hxa, if_false, Bool.false_eq_true]
        exact ((ih h2).cons x).trans (List.Perm.swap n x _)

theorem firstFit_spec (bs : List Block) (t : Nat) (fl : List Nat) (a : Nat)
    (h : firstFit bs t fl = some a) : a ∈ fl ∧ t ≤ blockSizeAt bs a := by
  induction fl with
  | nil => cases h
  | cons x xs ih =>
    by_cases hx : t ≤ blockSizeAt bs x
    · simp only [firstFit, if_pos hx, Option.some.injEq] at h
      subst h
      exact ⟨List.mem_cons_self _ _, hx⟩
    · simp only [firstFit, if_neg hx] at h
      rcases ih h with ⟨h1, h2⟩
      exact ⟨List.mem_cons_of_mem _ h1, h2⟩

/-! ### Free-address bookkeeping -/

theorem freeAddrs_append (l1 l2 : List Block) :
    freeAddrs (l1 ++ l2) = freeAddrs l1 ++ freeAddrs l2 := by
  simp [freeAddrs]

theorem freeAddrs_cons_free (b : Block) (l : List Block) (h : b.isFree = true) :
    freeAddrs (b :: l) = b.addr :: freeAddrs l := by
  simp [freeAddrs, h]

theorem freeAddrs_cons_used (b : Block) (l : List Block) (h : b.isFree = false) :
    freeAddrs (b :: l) = freeAddrs l := by
  simp [freeAddrs, h]

theorem mem_freeAddrs (l : List Block) (a : Nat) (h : a ∈ freeAddrs l) :
    ∃ b ∈ l, b.isFree = true ∧ b.addr = a := by
  unfold freeAddrs at h
  rcases List.mem_map.mp h with ⟨b, hb, hba⟩
  rcases List.mem_filter.mp hb with ⟨hmem, hfree⟩
  exact ⟨b, hmem, by simpa using hfree, hba⟩

theorem freeAddrs_subset_addrs (l : List Block) (a : Nat) (h : a ∈ freeAddrs l) :
    a ∈ l.map Block.addr := by
  rcases mem_freeAddrs l a h with ⟨b, hb, -, hba⟩
  exact List.mem_map.mpr ⟨b, hb, hba⟩

/-! ### Decomposition helpers -/

theorem wf_decomp_notmem (pre post : List Block) (b : Block)
    (h : chainFrom 0 (pre ++ b :: post) HEAP_SIZE) :
    b.addr ∉ pre.map Block.addr ∧ b.addr ∉ post.map Block.addr := by
  have hnd := chainFrom_nodup _ _ _ h
  rw [List.map_append, List.map_cons] at hnd
  rcases List.nodup_cons.mp (List.nodup_middle.mp hnd) with ⟨hnm, -⟩
  simp only [List.mem_append, not_or] at hnm
  exact hnm

theorem chain_decomp (pre post : List Block) (b : Block) (e : Nat)
    (h : chainFrom 0 (pre ++ b :: post) e) :
    ∃ m, chainFrom 0 pre m ∧ b.addr = m ∧ metadataSize ≤ b.size ∧
      b.size % ALIGN_SIZE = 0 ∧ chainFrom (m + b.size) post e := by
  rcases (chainFrom_append pre (b :: post) 0 e).mp h with ⟨m, h1, h2⟩
  rcases h2 with ⟨ha, hs, hm, hc⟩
  exact ⟨m, h1, ha, hs, hm, hc⟩

theorem freeAddrs_erase_middle (pre post : List Block) (b : Block)
    (hfree : b.isFree = true) (hpre : b.addr ∉ pre.map Block.addr) :
    (freeAddrs (pre ++ b :: post)).erase b.addr = freeAddrs pre ++ freeAddrs post := by
  rw [freeAddrs_append, freeAddrs_cons_free _ _ hfree, List.erase_append_right,
    List.erase_cons_head]
  intro hmem
  exact hpre (freeAddrs_subset_addrs _ _ hmem)

/-! ### Characterization of a successful allocation -/

theorem my_malloc_none (st : AllocState) (s : Nat)
    (h : (my_malloc st s).2 = none) : (my_malloc st s).1 = st := by
  unfold my_malloc at *
  by_cases hs : s = 0
  · simp [hs]
  · rw [if_neg hs] at *
    cases hf : firstFit st.blocks ((metadataSize + align_size s) % U64) st.freeList with
    | none => simp [hf]
    | some a => simp [hf] at h

theorem my_malloc_success (st : AllocState) (s : Nat) (st' : AllocState) (p : Nat)
    (hInv : Inv st) (hok : size_ok s)
    (h : my_malloc st s = (st', some p)) :
    ∃ pre b post,
      st.blocks = pre ++ b :: post ∧ b.isFree = true ∧
      p = b.addr + metadataSize ∧
      metadataSize + align_size s ≤ b.size ∧ b.size ≤ HEAP_SIZE ∧
      st'.stale = st.stale ∧
      ((b.size < metadataSize + align_size s + get_min_block_size ∧
          st'.blocks = pre ++ { b with isFree := false } :: post ∧
          st'.freeList = st.freeList.erase b.addr) ∨
       (metadataSize + align_size s + get_min_block_size ≤ b.size ∧
          st'.blocks =
            pre ++ ⟨b.addr, metadataSize + align_size s, false⟩ ::
              ⟨b.addr + (metadataSize + align_size s),
                b.size - (metadataSize + align_size s), true⟩ :: post ∧
          (st'.freeList).Perm
            ((b.addr + (metadataSize + align_size s)) :: st.freeList.erase b.addr))) := by
  rcases hInv with ⟨hwf, hnaf, hperm⟩
  have htot := size_ok_total s hok
  unfold my_malloc at h
  by_cases hs : s = 0
  · rw [if_pos hs] at h; exact absurd h (by simp)
  rw [if_neg hs] at h
  simp only [] at h
  cases hf : firstFit st.blocks ((metadataSize + align_size s) % U64) st.freeList with
  | none => rw [hf] at h; exact absurd h (by simp)
  | some a =>
    rw [hf] at h
    rcases firstFit_spec _ _ _ _ hf with ⟨hafl, hfit⟩
    have hafa : a ∈ freeAddrs st.blocks := hperm.mem_iff.mp hafl
    rcases mem_freeAddrs _ _ hafa with ⟨b, hbmem, hbfree, hba⟩
    rcases List.append_of_mem hbmem with ⟨pre, post, hdec⟩
    rw [hdec] at hwf
    rcases wf_decomp_notmem pre post b hwf with ⟨hpren, hpostn⟩
    rw [hba] at hpren hpostn
    have hbsz : blockSizeAt st.blocks a = b.size := by
      rw [hdec]; exact blockSizeAt_append pre post b a hba hpren
    rw [hbsz, htot] at hfit
    have hbH : b.addr + b.size ≤ HEAP_SIZE :=
      (chainFrom_mem_bounds _ _ _ hwf b (by simp)).2
    have hModG :
        ((metadataSize + align_size s) % U64 + get_min_block_size) % U64 =
          metadataSize + align_size s + get_min_block_size := by
      rw [htot]
      apply Nat.mod_eq_of_lt
      rw [min_block_eq]
      have h1 : metadataSize + align_size s ≤ b.size := hfit
      simp only [metadataSize, U64, HEAP_SIZE] at *
      omega
    have hsb : split_block st a s =
        if b.size < metadataSize + align_size s + get_min_block_size then st
        else
          { st with
            blocks := splitBlocks a (metadataSize + align_size s) st.blocks
            freeList :=
              insertAfter a (a + (metadataSize + align_size s)) st.freeList } := by
      unfold split_block
      simp only [hbsz, hModG]
      simp only [htot]
    simp only [] at h
    rw [hsb] at h
    injection h with h1 h2
    injection h2 with h2
    by_cases hguard : b.size < metadataSize + align_size s + get_min_block_size
    · rw [if_pos hguard] at h1
      refine ⟨pre, b, post, hdec, hbfree, ?_, hfit, by omega, ?_,
        Or.inl ⟨hguard, ?_, ?_⟩⟩
      · rw [← h2, hba]
      · rw [← h1]
      · rw [← h1]
        show setFree a false st.blocks = _
        rw [hdec, setFree_append pre post b a false hba hpren]
      · rw [← h1]
        show remove_from_free_list a st.freeList = _
        rw [remove_eq_erase, hba]
    · rw [if_neg hguard] at h1
      push_neg at hguard
      have hT0 : metadataSize + align_size s ≠ 0 := by unfold metadataSize; omega
      have hsplit : splitBlocks a (metadataSize + align_size s) st.blocks =
          pre ++ { b with size := metadataSize + align_size s } ::
            ⟨a + (metadataSize + align_size s),
              b.size - (metadataSize + align_size s), true⟩ :: post := by
        rw [hdec]
        exact splitBlocks_append pre post b a _ hba hpren hT0
      refine ⟨pre, b, post, hdec, hbfree, ?_, hfit, by omega, ?_,
        Or.inr ⟨hguard, ?_, ?_⟩⟩
      · rw [← h2, hba]
      · rw [← h1]
      · rw [← h1]
        show setFree a false (splitBlocks a (metadataSize + align_size s) st.blocks) = _
        rw [hsplit,
          setFree_append pre (⟨a + (metadataSize + align_size s),
              b.size - (metadataSize + align_size s), true⟩ :: post)
            { b with size := metadataSize + align_size s } a false hba hpren]
        rw [hba]
      · rw [← h1]
        show (remove_from_free_list a
          (insertAfter a (a + (metadataSize + align_size s)) st.freeList)).Perm _
        rw [remove_eq_erase, ← hba]
        exact insertAfter_erase_perm b.addr _ st.freeList (hba ▸ hafl)

/-! ### Surgery on the no-adjacent-free-blocks invariant -/

theorem noAdjFree_decomp (pre post : List Block) (b : Block)
    (h : noAdjFree (pre ++ b :: post)) :
    noAdjFree pre ∧ noAdjFree post ∧
      (∀ x ∈ pre.getLast?, ¬(x.isFree = true ∧ b.isFree = true)) ∧
      (∀ y ∈ post.head?, ¬(b.isFree = true ∧ y.isFree = true)) := by
  unfold noAdjFree at *
  rw [List.chain'_append] at h
  obtain ⟨h1, h2, h3⟩ := h
  rw [List.chain'_cons'] at h2
  refine ⟨h1, h2.2, ?_, h2.1⟩
  intro x hx
  exact h3 x hx b (by simp)

theorem noAdjFree_mid1 (pre post : List Block) (b : Block)
    (hpre : noAdjFree pre) (hpost : noAdjFree post)
    (hL : ∀ x ∈ pre.getLast?, ¬(x.isFree = true ∧ b.isFree = true))
    (hR : ∀ y ∈ post.head?, ¬(b.isFree = true ∧ y.isFree = true)) :
    noAdjFree (pre ++ b :: post) := by
  unfold noAdjFree at *
  rw [List.chain'_append, List.chain'_cons']
  refine ⟨hpre, ⟨hR, hpost⟩, ?_⟩
  intro x hx y hy
  simp only [List.head?_cons, Option.mem_def, Option.some.injEq] at hy
  subst hy
  exact hL x hx

theorem noAdjFree_mid2 (pre post : List Block) (b1 b2 : Block)
    (hpre : noAdjFree pre) (hpost : noAdjFree post)
    (hL : ∀ x ∈ pre.getLast?, ¬(x.isFree = true ∧ b1.isFree = true))
    (hM : ¬(b1.isFree = true ∧ b2.isFree = true))
    (hR : ∀ y ∈ post.head?, ¬(b2.isFree = true ∧ y.isFree = true)) :
    noAdjFree (pre ++ b1 :: b2 :: post) := by
  refine noAdjFree_mid1 pre (b2 :: post) b1 hpre ?_ hL ?_
  · exact noAdjFree_mid1 [] post b2 (by unfold noAdjFree; simp) hpost (by simp) hR
  · intro y hy
    simp only [List.head?_cons, Option.mem_def, Option.some.injEq] at hy
    subst hy
    exact hM

/-! ### Allocation preserves the invariant -/

theorem inv_malloc (st : AllocState) (s : Nat) (hok : size_ok s) (hInv : Inv st) :
    Inv (my_malloc st s).1 := by
  rcases hmm : my_malloc st s with ⟨st', r⟩
  cases r with
  | none =>
    have h1 : (my_malloc st s).1 = st := my_malloc_none st s (by rw [hmm])
    rw [hmm] at h1
    simp only at h1
    simpa [h1] using hInv
  | some p =>
    rcases my_malloc_success st s st' p hInv hok hmm with
      ⟨pre, b, post, hdec, hbfree, hp, hfit, hbh, hstale, hcase⟩
    show Inv st'
    have hwf : chainFrom 0 (pre ++ b :: post) HEAP_SIZE := by
      have := hInv.1; rw [hdec] at this; exact this
    have hnaf : noAdjFree (pre ++ b :: post) := by
      have := hInv.2.1; rw [hdec] at this; exact this
    have hperm : st.freeList.Perm (freeAddrs (pre ++ b :: post)) := by
      have := hInv.2.2; rw [hdec] at this; exact this
    rcases wf_decomp_notmem pre post b hwf with ⟨hpren, hpostn⟩
    rcases chain_decomp pre post b HEAP_SIZE hwf with ⟨m, hcpre, hbm, hb24, hbmod, hcpost⟩
    rcases noAdjFree_decomp pre post b hnaf with ⟨hnpre, hnpost, hnL, hnR⟩
    have herase : (freeAddrs (pre ++ b :: post)).erase b.addr =
        freeAddrs pre ++ freeAddrs post :=
      freeAddrs_erase_middle pre post b hbfree hpren
    rcases hcase with ⟨hguard, hblocks, hfl⟩ | ⟨hguard, hblocks, hfl⟩
    · -- no split: the whole block is handed out
      refine ⟨?_, ?_, ?_⟩
      · show blocksWF st'.blocks
        rw [hblocks]
        refine (chainFrom_append _ _ _ _).mpr ⟨m, hcpre, ?_⟩
        exact ⟨hbm, hb24, hbmod, hcpost⟩
      · show noAdjFree st'.blocks
        rw [hblocks]
        refine noAdjFree_mid1 pre post _ hnpre hnpost ?_ ?_
        · intro x hx; simp
        · intro y hy; simp
      · show st'.freeList.Perm (freeAddrs st'.blocks)
        rw [hblocks, hfl, freeAddrs_append,
          freeAddrs_cons_used _ _ (by rfl)]
        exact (hperm.erase b.addr).trans (by rw [herase])
    · -- split: block shrunk to total, fresh free remainder spliced behind it
      have hmod8 : (metadataSize + align_size s) % ALIGN_SIZE = 0 := by
        rw [Nat.add_mod, align_size_mod]
        rfl
      refine ⟨?_, ?_, ?_⟩
      · show blocksWF st'.blocks
        rw [hblocks]
        refine (chainFrom_append _ _ _ _).mpr ⟨m, hcpre, ?_⟩
        rw [min_block_eq] at hguard
        have hfit2 : metadataSize + align_size s ≤ b.size := hfit
        refine ⟨hbm, ?_, hmod8, ?_, ?_, ?_, ?_⟩
        · show metadataSize ≤ metadataSize + align_size s
          omega
        · show b.addr + (metadataSize + align_size s) =
            m + (metadataSize + align_size s)
          omega
        · show metadataSize ≤ b.size - (metadataSize + align_size s)
          simp only [metadataSize] at hguard hfit2 ⊢
          omega
        · show (b.size - (metadataSize + align_size s)) % ALIGN_SIZE = 0
          simp only [ALIGN_SIZE] at hbmod hmod8 ⊢
          omega
        · show chainFrom (m + (metadataSize + align_size s) +
              (b.size - (metadataSize + align_size s))) post HEAP_SIZE
          have harith : m + (metadataSize + align_size s) +
              (b.size - (metadataSize + align_size s)) = m + b.size := by
            omega
          rw [harith]
          exact hcpost
      · show noAdjFree st'.blocks
        rw [hblocks]
        refine noAdjFree_mid2 pre post _ _ hnpre hnpost ?_ ?_ ?_
        · intro x hx; simp
        · simp
        · intro y hy
          have h2 := hnR y hy
          intro hc
          exact h2 ⟨hbfree, hc.2⟩
      · show st'.freeList.Perm (freeAddrs st'.blocks)
        rw [hblocks, freeAddrs_append, freeAddrs_cons_used _ _ (by rfl),
          freeAddrs_cons_free _ _ (by rfl)]
        refine hfl.trans ?_
        refine List.Perm.trans ?_ List.perm_middle.symm
        refine List.Perm.cons _ ?_
        refine (hperm.erase b.addr).trans ?_
        rw [herase]

/-! ### The backward scan of coalescing -/

theorem chainFrom_cons_lb (a e : Nat) (b : Block) (bs : List Block)
    (h : chainFrom a (b :: bs) e) : a + metadataSize ≤ e := by
  rcases h with ⟨h1, h2, h3, h4⟩
  have := chainFrom_le bs _ _ h4
  omega

theorem findPrevFree_head (t : Nat) (b : Block) (bs : List Block) (h : ¬ b.addr < t) :
    findPrevFree t (b :: bs) = none := by
  unfold findPrevFree
  rw [if_neg h]

/-- On a tiled prefix `pre0 ++ [q]` covering `[a, m)`, the backward scan for
target `m` stops exactly at `q` and reports it when free. -/
theorem findPrevFree_spec (pre0 : List Block) (q : Block) (rest : List Block) (a m : Nat)
    (hchain : chainFrom a (pre0 ++ [q]) m) :
    findPrevFree m (pre0 ++ q :: rest) =
      if q.isFree = true then some q.addr else none := by
  induction pre0 generalizing a with
  | nil =>
    rcases hchain with ⟨hqa, h24, hmod, hrest⟩
    have hend : q.addr + q.size = m := by
      rw [chainFrom_nil] at hrest
      omega
    have hlt : q.addr < m := by
      unfold metadataSize at h24
      omega
    simp only [List.nil_append]
    unfold findPrevFree
    rw [if_pos hlt]
    by_cases hf : q.isFree = true
    · rw [if_pos ⟨hend, hf⟩, if_pos hf]
    · rw [if_neg (fun hc => hf hc.2), if_pos (Nat.le_of_eq hend.symm), if_neg hf]
  | cons c cs ih =>
    rcases hchain with ⟨hca, h24, hmod, hrest⟩
    simp only [List.append_eq] at hrest
    have hm : a + c.size + metadataSize ≤ m := by
      rcases hcc : cs ++ [q] with _ | ⟨d, ds⟩
      · exact absurd hcc (by simp)
      · rw [hcc] at hrest
        exact chainFrom_cons_lb _ _ _ _ hrest
    have hlt : c.addr < m := by unfold metadataSize at *; omega
    simp only [List.cons_append]
    unfold findPrevFree
    rw [if_pos hlt, if_neg (fun hc => by unfold metadataSize at *; omega),
      if_neg (by unfold metadataSize at *; omega)]
    exact ih (a + c.size) hrest

/-- Absorbing the block `B` into the block `q` sitting right before it:
`q` grows by `B.size` and `B` leaves the address walk. -/
theorem grow_erase_calc (pre0 post2 : List Block) (q B : Block)
    (hnodup : ((pre0 ++ q :: B :: post2).map Block.addr).Nodup) :
    eraseBlock B.addr (growBlock q.addr B.size (pre0 ++ q :: B :: post2)) =
      pre0 ++ { q with size := q.size + B.size } :: post2 := by
  have hq : q.addr ∉ pre0.map Block.addr := by
    rw [List.map_append, List.map_cons] at hnodup
    rcases List.nodup_cons.mp (List.nodup_middle.mp hnodup) with ⟨hnm, -⟩
    simp only [List.mem_append, not_or] at hnm
    exact hnm.1
  have hB : B.addr ∉ (pre0 ++ [q]).map Block.addr := by
    have hre : pre0 ++ q :: B :: post2 = (pre0 ++ [q]) ++ B :: post2 := by simp
    rw [hre, List.map_append, List.map_cons] at hnodup
    rcases List.nodup_cons.mp (List.nodup_middle.mp hnodup) with ⟨hnm, -⟩
    simp only [List.mem_append, not_or] at hnm
    exact hnm.1
  rw [growBlock_append pre0 (B :: post2) q q.addr B.size rfl hq]
  have hre2 : pre0 ++ { q with size := q.size + B.size } :: B :: post2 =
      (pre0 ++ [{ q with size := q.size + B.size }]) ++ B :: post2 := by simp
  rw [hre2, eraseBlock_append _ post2 B B.addr rfl ?hmem]
  · simp
  case hmem =>
    simpa using hB

/-! ### The forward-merge stage of coalescing -/

theorem coalesce_fwd_nil (pre : List Block) (B : Block) (fl sl : List Nat)
    (hchain : chainFrom 0 (pre ++ [B]) HEAP_SIZE) :
    coalesce_fwd ⟨pre ++ [B], fl, sl⟩ B.addr = ⟨pre ++ [B], fl, sl⟩ := by
  rcases chain_decomp pre [] B HEAP_SIZE hchain with ⟨m, hcpre, hbm, hb24, hbmod, hcpost⟩
  rw [chainFrom_nil] at hcpost
  rcases wf_decomp_notmem pre [] B hchain with ⟨hpren, -⟩
  have hbsz : blockSizeAt (pre ++ [B]) B.addr = B.size :=
    blockSizeAt_append pre [] B B.addr rfl hpren
  have hend : B.addr + B.size = HEAP_SIZE := by omega
  unfold coalesce_fwd
  simp only [hbsz, hend]
  rw [if_neg (lt_irrefl HEAP_SIZE)]

theorem coalesce_fwd_used (pre post2 : List Block) (B n : Block) (fl sl : List Nat)
    (hchain : chainFrom 0 (pre ++ B :: n :: post2) HEAP_SIZE)
    (hnu : n.isFree = false) :
    coalesce_fwd ⟨pre ++ B :: n :: post2, fl, sl⟩ B.addr =
      ⟨pre ++ B :: n :: post2, fl, sl⟩ := by
  rcases chain_decomp pre (n :: post2) B HEAP_SIZE hchain with
    ⟨m, hcpre, hbm, hb24, hbmod, hcpost⟩
  rcases hcpost with ⟨hna, hn24, hnmod, hcrest⟩
  have hnd := chainFrom_nodup _ _ _ hchain
  rcases wf_decomp_notmem pre (n :: post2) B hchain with ⟨hpren, -⟩
  have hbsz : blockSizeAt (pre ++ B :: n :: post2) B.addr = B.size :=
    blockSizeAt_append pre (n :: post2) B B.addr rfl hpren
  have hnaddr : n.addr = B.addr + B.size := by omega
  have hlt : B.addr + B.size < HEAP_SIZE := by
    have := chainFrom_le post2 _ _ hcrest
    unfold metadataSize at hn24
    omega
  have hnm : n.addr ∉ (pre ++ [B]).map Block.addr := by
    rw [List.map_append, List.map_cons] at hnd
    have hre : pre.map Block.addr ++ B.addr :: n.addr :: post2.map Block.addr =
        (pre.map Block.addr ++ [B.addr]) ++ n.addr :: post2.map Block.addr := by
      simp
    rw [List.map_cons, hre] at hnd
    rcases List.nodup_cons.mp (List.nodup_middle.mp hnd) with ⟨hm, -⟩
    simp only [List.mem_append, not_or] at hm
    intro hmem
    rw [List.map_append] at hmem
    rcases List.mem_append.mp hmem with h | h
    · exact hm.1.1 h
    · exact hm.1.2 (by simpa using h)
  have hnm2 : B.addr + B.size ∉ (pre ++ [B]).map Block.addr := by
    rw [← hnaddr]
    exact hnm
  have hfind : findBlock (pre ++ B :: n :: post2) (B.addr + B.size) = some n := by
    have h1 := findBlock_append (pre ++ [B]) post2 n (B.addr + B.size)
      (by rw [hnaddr]) hnm2
    simpa using h1
  unfold coalesce_fwd
  simp only [hbsz]
  rw [if_pos hlt, hfind]
  simp only []
  rw [if_neg (by rw [hnu]; simp)]

theorem coalesce_fwd_merge (pre post2 : List Block) (B n : Block) (fl sl : List Nat)
    (hchain : chainFrom 0 (pre ++ B :: n :: post2) HEAP_SIZE)
    (hnf : n.isFree = true) :
    coalesce_fwd ⟨pre ++ B :: n :: post2, fl, sl⟩ B.addr =
      ⟨pre ++ { B with size := B.size + n.size } :: post2,
        fl.erase n.addr, n.addr :: sl⟩ := by
  rcases chain_decomp pre (n :: post2) B HEAP_SIZE hchain with
    ⟨m, hcpre, hbm, hb24, hbmod, hcpost⟩
  rcases hcpost with ⟨hna, hn24, hnmod, hcrest⟩
  have hnd := chainFrom_nodup _ _ _ hchain
  rcases wf_decomp_notmem pre (n :: post2) B hchain with ⟨hpren, -⟩
  have hbsz : blockSizeAt (pre ++ B :: n :: post2) B.addr = B.size :=
    blockSizeAt_append pre (n :: post2) B B.addr rfl hpren
  have hnaddr : n.addr = B.addr + B.size := by omega
  have hlt : B.addr + B.size < HEAP_SIZE := by
    have := chainFrom_le post2 _ _ hcrest
    unfold metadataSize at hn24
    omega
  have hnm : n.addr ∉ (pre ++ [B]).map Block.addr := by
    rw [List.map_append, List.map_cons] at hnd
    have hre : pre.map Block.addr ++ B.addr :: n.addr :: post2.map Block.addr =
        (pre.map Block.addr ++ [B.addr]) ++ n.addr :: post2.map Block.addr := by
      simp
    rw [List.map_cons, hre] at hnd
    rcases List.nodup_cons.mp (List.nodup_middle.mp hnd) with ⟨hm, -⟩
    simp only [List.mem_append, not_or] at hm
    intro hmem
    rw [List.map_append] at hmem
    rcases List.mem_append.mp hmem with h | h
    · exact hm.1.1 h
    · exact hm.1.2 (by simpa using h)
  have hnm2 : B.addr + B.size ∉ (pre ++ [B]).map Block.addr := by
    rw [← hnaddr]
    exact hnm
  have hfind : findBlock (pre ++ B :: n :: post2) (B.addr + B.size) = some n := by
    have h1 := findBlock_append (pre ++ [B]) post2 n (B.addr + B.size)
      (by rw [hnaddr]) hnm2
    simpa using h1
  have hge : eraseBlock n.addr (growBlock B.addr n.size (pre ++ B :: n :: post2)) =
      pre ++ { B with size := B.size + n.size } :: post2 :=
    grow_erase_calc pre post2 B n hnd
  unfold coalesce_fwd
  simp only [hbsz]
  rw [if_pos hlt, hfind]
  simp only []
  rw [if_pos hnf, if_neg (by unfold metadataSize at hb24; omega), ← hnaddr, hge,
    remove_eq_erase]

/-! ### The full coalescing computation, by neighbour shape -/

theorem coalesce_calc_nn (pre post : List Block) (B : Block) (fl sl : List Nat)
    (hchain : chainFrom 0 (pre ++ B :: post) HEAP_SIZE)
    (hpost : ∀ y ∈ post.head?, y.isFree = false)
    (hpre : ∀ x ∈ pre.getLast?, x.isFree = false) :
    coalesce_block ⟨pre ++ B :: post, fl, sl⟩ B.addr =
      (⟨pre ++ B :: post, fl, sl⟩, some B.addr) := by
  have hfwd : coalesce_fwd ⟨pre ++ B :: post, fl, sl⟩ B.addr =
      ⟨pre ++ B :: post, fl, sl⟩ := by
    cases post with
    | nil => exact coalesce_fwd_nil pre B fl sl hchain
    | cons n post2 =>
      exact coalesce_fwd_used pre post2 B n fl sl hchain (hpost n (by simp))
  have hprev : findPrevFree B.addr (pre ++ B :: post) = none := by
    rcases List.eq_nil_or_concat pre with rfl | ⟨pre0, q, hq0⟩
    · simp only [List.nil_append]
      exact findPrevFree_head B.addr B post (lt_irrefl _)
    · rw [List.concat_eq_append] at hq0
      subst hq0
      have hc : chainFrom 0 (pre0 ++ [q]) B.addr := by
        rcases chain_decomp (pre0 ++ [q]) post B HEAP_SIZE hchain with
          ⟨m, h1, h2, -, -, -⟩
        rw [h2]
        exact h1
      have hq : q.isFree = false := hpre q (by rw [List.getLast?_concat]; rfl)
      have hspec := findPrevFree_spec pre0 q (B :: post) 0 B.addr hc
      rw [if_neg (by rw [hq]; simp)] at hspec
      simpa using hspec
  unfold coalesce_block
  simp only [hfwd, hprev]

theorem coalesce_calc_fwdonly (pre post2 : List Block) (B n : Block) (fl sl : List Nat)
    (hchain : chainFrom 0 (pre ++ B :: n :: post2) HEAP_SIZE)
    (hnf : n.isFree = true)
    (hpre : ∀ x ∈ pre.getLast?, x.isFree = false) :
    coalesce_block ⟨pre ++ B :: n :: post2, fl, sl⟩ B.addr =
      (⟨pre ++ { B with size := B.size + n.size } :: post2,
          fl.erase n.addr, n.addr :: sl⟩,
       some B.addr) := by
  have hfwd := coalesce_fwd_merge pre post2 B n fl sl hchain hnf
  have hprev : findPrevFree B.addr
      (pre ++ { B with size := B.size + n.size } :: post2) = none := by
    rcases List.eq_nil_or_concat pre with rfl | ⟨pre0, q, hq0⟩
    · simp only [List.nil_append]
      exact findPrevFree_head B.addr _ post2 (lt_irrefl _)
    · rw [List.concat_eq_append] at hq0
      subst hq0
      have hc : chainFrom 0 (pre0 ++ [q]) B.addr := by
        rcases chain_decomp (pre0 ++ [q]) (n :: post2) B HEAP_SIZE hchain with
          ⟨m, h1, h2, -, -, -⟩
        rw [h2]
        exact h1
      have hq : q.isFree = false := hpre q (by rw [List.getLast?_concat]; rfl)
      have hspec := findPrevFree_spec pre0 q
        ({ B with size := B.size + n.size } :: post2) 0 B.addr hc
      rw [if_neg (by rw [hq]; simp)] at hspec
      simpa using hspec
  unfold coalesce_block
  simp only [hfwd, hprev]

theorem coalesce_calc_bwdonly (pre0 post : List Block) (q B : Block) (fl sl : List Nat)
    (hchain : chainFrom 0 (pre0 ++ q :: B :: post) HEAP_SIZE)
    (hqf : q.isFree = true)
    (hpost : ∀ y ∈ post.head?, y.isFree = false) :
    coalesce_block ⟨pre0 ++ q :: B :: post, fl, sl⟩ B.addr =
      (⟨pre0 ++ { q with size := q.size + B.size } :: post, fl, B.addr :: sl⟩,
       none) := by
  have hre : pre0 ++ q :: B :: post = (pre0 ++ [q]) ++ B :: post := by simp
  have hchain2 : chainFrom 0 ((pre0 ++ [q]) ++ B :: post) HEAP_SIZE := by
    rw [← hre]; exact hchain
  have hfwd : coalesce_fwd ⟨pre0 ++ q :: B :: post, fl, sl⟩ B.addr =
      ⟨pre0 ++ q :: B :: post, fl, sl⟩ := by
    rw [hre]
    cases post with
    | nil => exact coalesce_fwd_nil (pre0 ++ [q]) B fl sl hchain2
    | cons n post2 =>
      exact coalesce_fwd_used (pre0 ++ [q]) post2 B n fl sl hchain2 (hpost n (by simp))
  have hc : chainFrom 0 (pre0 ++ [q]) B.addr := by
    rcases chain_decomp (pre0 ++ [q]) post B HEAP_SIZE hchain2 with ⟨m, h1, h2, -, -, -⟩
    rw [h2]
    exact h1
  have hprev : findPrevFree B.addr (pre0 ++ q :: B :: post) = some q.addr := by
    have hspec := findPrevFree_spec pre0 q (B :: post) 0 B.addr hc
    rw [if_pos hqf] at hspec
    exact hspec
  have hnd := chainFrom_nodup _ _ _ hchain
  rcases wf_decomp_notmem (pre0 ++ [q]) post B hchain2 with ⟨hpren, -⟩
  have hbsz : blockSizeAt (pre0 ++ q :: B :: post) B.addr = B.size := by
    have h1 := blockSizeAt_append (pre0 ++ [q]) post B B.addr rfl hpren
    simpa using h1
  have hge := grow_erase_calc pre0 post q B hnd
  unfold coalesce_block
  simp only [hfwd, hprev, hbsz, hge]

theorem coalesce_calc_both (pre0 post2 : List Block) (q B n : Block) (fl sl : List Nat)
    (hchain : chainFrom 0 (pre0 ++ q :: B :: n :: post2) HEAP_SIZE)
    (hqf : q.isFree = true) (hnf : n.isFree = true) :
    coalesce_block ⟨pre0 ++ q :: B :: n :: post2, fl, sl⟩ B.addr =
      (⟨pre0 ++ { q with size := q.size + (B.size + n.size) } :: post2,
          fl.erase n.addr, B.addr :: n.addr :: sl⟩,
       none) := by
  have hre : pre0 ++ q :: B :: n :: post2 = (pre0 ++ [q]) ++ B :: n :: post2 := by simp
  have hchain2 : chainFrom 0 ((pre0 ++ [q]) ++ B :: n :: post2) HEAP_SIZE := by
    rw [← hre]; exact hchain
  have hfwd : coalesce_fwd ⟨pre0 ++ q :: B :: n :: post2, fl, sl⟩ B.addr =
      ⟨pre0 ++ q :: { B with size := B.size + n.size } :: post2,
        fl.erase n.addr, n.addr :: sl⟩ := by
    have h1 := coalesce_fwd_merge (pre0 ++ [q]) post2 B n fl sl hchain2 hnf
    rw [hre]
    simpa using h1
  have hc : chainFrom 0 (pre0 ++ [q]) B.addr := by
    rcases chain_decomp (pre0 ++ [q]) (n :: post2) B HEAP_SIZE hchain2 with
      ⟨m, h1, h2, -, -, -⟩
    rw [h2]
    exact h1
  have hprev : findPrevFree B.addr
      (pre0 ++ q :: { B with size := B.size + n.size } :: post2) = some q.addr := by
    have hspec := findPrevFree_spec pre0 q
      ({ B with size := B.size + n.size } :: post2) 0 B.addr hc
    rw [if_pos hqf] at hspec
    exact hspec
  have hnd2 : ((pre0 ++ q :: { B with size := B.size + n.size } :: post2).map
      Block.addr).Nodup := by
    have hnd := chainFrom_nodup _ _ _ hchain
    simp only [List.map_append, List.map_cons] at hnd ⊢
    refine List.Nodup.sublist ?_ hnd
    refine List.Sublist.append_left ?_ _
    exact List.Sublist.cons₂ _ (List.Sublist.cons₂ _ (List.sublist_cons_self _ _))
  have hpren2 : ({ B with size := B.size + n.size } : Block).addr ∉
      (pre0 ++ [q]).map Block.addr := by
    rcases wf_decomp_notmem (pre0 ++ [q]) (n :: post2) B hchain2 with ⟨hpren, -⟩
    simpa using hpren
  have hbsz : blockSizeAt (pre0 ++ q :: { B with size := B.size + n.size } :: post2)
      B.addr = B.size + n.size := by
    have h1 := blockSizeAt_append (pre0 ++ [q]) post2
      { B with size := B.size + n.size } B.addr rfl hpren2
    simpa using h1
  have hge := grow_erase_calc pre0 post2 q { B with size := B.size + n.size } hnd2
  unfold coalesce_block
  simp only [hfwd, hprev, hbsz, hge]

/-! ### Dissection of a successful release -/

theorem chainFrom_congr_mid (pre post : List Block) (b b' : Block) (a e : Nat)
    (h : chainFrom a (pre ++ b :: post) e) (ha : b'.addr = b.addr)
    (hs : b'.size = b.size) :
    chainFrom a (pre ++ b' :: post) e := by
  rcases (chainFrom_append pre (b :: post) a e).mp h with ⟨m, h1, h2⟩
  rcases h2 with ⟨hb1, hb2, hb3, hb4⟩
  refine (chainFrom_append pre (b' :: post) a e).mpr ⟨m, h1, ?_, ?_, ?_, ?_⟩
  · rw [ha]; exact hb1
  · rw [hs]; exact hb2
  · rw [hs]; exact hb3
  · rw [hs]; exact hb4

/-- Entering `my_free` with a pointer recovered from an in-use block:
null check, bounds check and double-free check all pass, the block is
marked free in place, and control reaches the coalescing step. -/
theorem my_free_enter (st : AllocState) (pre post : List Block) (b : Block)
    (hwf : blocksWF st.blocks) (hdec : st.blocks = pre ++ b :: post)
    (hbu : b.isFree = false) :
    my_free st (some ((b.addr + metadataSize : Nat) : Int)) =
      (match coalesce_block ⟨pre ++ { b with isFree := true } :: post,
          st.freeList, st.stale⟩ b.addr with
       | (st2, some ins) => ({ st2 with freeList := ins :: st2.freeList }, none)
       | (st2, none) => (st2, none)) := by
  unfold blocksWF at hwf
  rw [hdec] at hwf
  rcases wf_decomp_notmem pre post b hwf with ⟨hpren, -⟩
  have hbH : b.addr + b.size ≤ HEAP_SIZE :=
    (chainFrom_mem_bounds _ _ _ hwf b (by simp)).2
  have hb24 := (chainFrom_size_pos _ _ _ hwf b (by simp)).1
  have hbaeq : ((b.addr + metadataSize : Nat) : Int) - (metadataSize : Int) =
      (b.addr : Int) := by
    push_cast
    ring
  have hcond : 0 ≤ ((b.addr : Int)) ∧ ((b.addr : Int)) < (HEAP_SIZE : Int) := by
    constructor
    · exact Int.natCast_nonneg _
    · exact_mod_cast (by unfold metadataSize at hb24; omega : b.addr < HEAP_SIZE)
  have hfind : findBlock st.blocks b.addr = some b := by
    rw [hdec]; exact findBlock_append pre post b b.addr rfl hpren
  have hsf : setFree b.addr true st.blocks =
      pre ++ { b with isFree := true } :: post := by
    rw [hdec]; exact setFree_append pre post b b.addr true rfl hpren
  unfold my_free
  simp only []
  rw [hbaeq, if_pos hcond]
  simp only [Int.toNat_natCast]
  rw [hfind]
  simp only []
  rw [if_neg (by rw [hbu]; simp), hsf]

theorem my_free_spec (st : AllocState) (pre post : List Block) (b : Block)
    (hwf : blocksWF st.blocks) (hdec : st.blocks = pre ++ b :: post)
    (hbu : b.isFree = false) :
    ∃ st', my_free st (some ((b.addr + metadataSize : Nat) : Int)) = (st', none) ∧
      (((∀ y ∈ post.head?, y.isFree = false) ∧
          (∀ x ∈ pre.getLast?, x.isFree = false) ∧
          st' = ⟨pre ++ { b with isFree := true } :: post,
            b.addr :: st.freeList, st.stale⟩) ∨
       (∃ n post2, post = n :: post2 ∧ n.isFree = true ∧
          (∀ x ∈ pre.getLast?, x.isFree = false) ∧
          st' = ⟨pre ++ ⟨b.addr, b.size + n.size, true⟩ :: post2,
            b.addr :: st.freeList.erase n.addr, n.addr :: st.stale⟩) ∨
       (∃ pre0 q, pre = pre0 ++ [q] ∧ q.isFree = true ∧
          (∀ y ∈ post.head?, y.isFree = false) ∧
          st' = ⟨pre0 ++ { q with size := q.size + b.size } :: post,
            st.freeList, b.addr :: st.stale⟩) ∨
       (∃ pre0 q n post2, pre = pre0 ++ [q] ∧ post = n :: post2 ∧
          q.isFree = true ∧ n.isFree = true ∧
          st' = ⟨pre0 ++ { q with size := q.size + (b.size + n.size) } :: post2,
            st.freeList.erase n.addr, b.addr :: n.addr :: st.stale⟩)) := by
  have hwfd : chainFrom 0 (pre ++ b :: post) HEAP_SIZE := by
    have := hwf
    unfold blocksWF at this
    rw [hdec] at this
    exact this
  have hchT : chainFrom 0 (pre ++ { b with isFree := true } :: post) HEAP_SIZE :=
    chainFrom_congr_mid pre post b _ 0 HEAP_SIZE hwfd rfl rfl
  have henter := my_free_enter st pre post b hwf hdec hbu
  have hpostd : (∃ n post2, post = n :: post2 ∧ n.isFree = true) ∨
      (∀ y ∈ post.head?, y.isFree = false) := by
    cases post with
    | nil => right; intro y hy; simp at hy
    | cons n post2 =>
      by_cases hnf : n.isFree = true
      · left; exact ⟨n, post2, rfl, hnf⟩
      · right
        intro y hy
        simp only [List.head?_cons, Option.mem_def, Option.some.injEq] at hy
        subst hy
        exact Bool.eq_false_iff.mpr hnf
  have hpred : (∃ pre0 q, pre = pre0 ++ [q] ∧ q.isFree = true) ∨
      (∀ x ∈ pre.getLast?, x.isFree = false) := by
    rcases List.eq_nil_or_concat pre with hnil | ⟨pre0, q, hq0⟩
    · right; intro x hx; rw [hnil] at hx; simp at hx
    · rw [List.concat_eq_append] at hq0
      by_cases hqf : q.isFree = true
      · left; exact ⟨pre0, q, hq0, hqf⟩
      · right
        intro x hx
        rw [hq0, List.getLast?_concat] at hx
        simp only [Option.mem_def, Option.some.injEq] at hx
        subst hx
        exact Bool.eq_false_iff.mpr hqf
  rcases hpostd with ⟨n, post2, rfl, hnf⟩ | hpostF
  · rcases hpred with ⟨pre0, q, rfl, hqf⟩ | hpreF
    · -- both neighbours free
      have hass : (pre0 ++ [q]) ++ { b with isFree := true } :: n :: post2 =
          pre0 ++ q :: { b with isFree := true } :: n :: post2 := by simp
      have hchT2 : chainFrom 0
          (pre0 ++ q :: { b with isFree := true } :: n :: post2) HEAP_SIZE := by
        rw [← hass]; exact hchT
      have hco : coalesce_block ⟨(pre0 ++ [q]) ++ { b with isFree := true } :: n :: post2,
          st.freeList, st.stale⟩ b.addr =
          (⟨pre0 ++ { q with size := q.size + (b.size + n.size) } :: post2,
              st.freeList.erase n.addr, b.addr :: n.addr :: st.stale⟩, none) := by
        rw [hass]
        exact coalesce_calc_both pre0 post2 q _ n st.freeList st.stale hchT2 hqf hnf
      rw [henter, hco]
      exact ⟨_, rfl, Or.inr (Or.inr (Or.inr
        ⟨pre0, q, n, post2, rfl, rfl, hqf, hnf, rfl⟩))⟩
    · -- only the successor is free
      have hco : coalesce_block ⟨pre ++ { b with isFree := true } :: n :: post2,
          st.freeList, st.stale⟩ b.addr =
          (⟨pre ++ ⟨b.addr, b.size + n.size, true⟩ :: post2,
              st.freeList.erase n.addr, n.addr :: st.stale⟩, some b.addr) :=
        coalesce_calc_fwdonly pre post2 _ n st.freeList st.stale hchT hnf hpreF
      rw [henter, hco]
      exact ⟨_, rfl, Or.inr (Or.inl ⟨n, post2, rfl, hnf, hpreF, rfl⟩)⟩
  · rcases hpred with ⟨pre0, q, rfl, hqf⟩ | hpreF
    · -- only the predecessor is free
      have hass : (pre0 ++ [q]) ++ { b with isFree := true } :: post =
          pre0 ++ q :: { b with isFree := true } :: post := by simp
      have hchT2 : chainFrom 0
          (pre0 ++ q :: { b with isFree := true } :: post) HEAP_SIZE := by
        rw [← hass]; exact hchT
      have hco : coalesce_block ⟨(pre0 ++ [q]) ++ { b with isFree := true } :: post,
          st.freeList, st.stale⟩ b.addr =
          (⟨pre0 ++ { q with size := q.size + b.size } :: post,
              st.freeList, b.addr :: st.stale⟩, none) := by
        rw [hass]
        exact coalesce_calc_bwdonly pre0 post q _ st.freeList st.stale hchT2 hqf hpostF
      rw [henter, hco]
      exact ⟨_, rfl, Or.inr (Or.inr (Or.inl ⟨pre0, q, rfl, hqf, hpostF, rfl⟩))⟩
    · -- no free neighbour
      have hco : coalesce_block ⟨pre ++ { b with isFree := true } :: post,
          st.freeList, st.stale⟩ b.addr =
          (⟨pre ++ { b with isFree := true } :: post, st.freeList, st.stale⟩,
            some b.addr) :=
        coalesce_calc_nn pre post _ st.freeList st.stale hchT hpostF hpreF
      rw [henter, hco]
      exact ⟨_, rfl, Or.inl ⟨hpostF, hpreF, rfl⟩⟩

/-! ### Release preserves the invariant -/

theorem findBlock_mem (bs : List Block) (a : Nat) (b : Block)
    (h : findBlock bs a = some b) : b ∈ bs ∧ b.addr = a := by
  unfold findBlock at h
  refine ⟨List.mem_of_find?_eq_some h, ?_⟩
  have := List.find?_some h
  simpa using this

theorem notmem_of_nodup_prefix (l1 l2 : List Nat) (y : Nat)
    (hnd : (l1 ++ y :: l2).Nodup) : y ∉ l1 := by
  rcases List.nodup_cons.mp (List.nodup_middle.mp hnd) with ⟨hm, -⟩
  simp only [List.mem_append, not_or] at hm
  exact hm.1

theorem inv_free (st : AllocState) (p : Option Int) (hInv : Inv st) :
    Inv (my_free st p).1 := by
  rcases p with _ | pv
  · exact hInv
  by_cases hv : 0 ≤ pv - (metadataSize : Int) ∧ pv - (metadataSize : Int) < (HEAP_SIZE : Int)
  case neg =>
    have hred : my_free st (some pv) = (st, some FreeError.invalidPtr) := by
      unfold my_free
      simp only []
      rw [if_neg hv]
    rw [hred]
    exact hInv
  case pos =>
    cases hf : findBlock st.blocks ((pv - (metadataSize : Int)).toNat) with
    | none =>
      by_cases hst : (pv - (metadataSize : Int)).toNat ∈ st.stale
      · have hred : my_free st (some pv) = (st, some FreeError.doubleFree) := by
          unfold my_free
          simp only []
          rw [if_pos hv, hf]
          simp only []
          rw [if_pos hst]
        rw [hred]
        exact hInv
      · have hred : my_free st (some pv) = (st, some FreeError.unmodeledRead) := by
          unfold my_free
          simp only []
          rw [if_pos hv, hf]
          simp only []
          rw [if_neg hst]
        rw [hred]
        exact hInv
    | some b =>
      by_cases hbf : b.isFree = true
      · have hred : my_free st (some pv) = (st, some FreeError.doubleFree) := by
          unfold my_free
          simp only []
          rw [if_pos hv, hf]
          simp only []
          rw [if_pos hbf]
        rw [hred]
        exact hInv
      · -- the release succeeds; the four merge shapes
        have hbf2 : b.isFree = false := Bool.eq_false_iff.mpr hbf
        obtain ⟨hbmem, hab⟩ := findBlock_mem _ _ _ hf
        have hqq : pv = ((b.addr + metadataSize : Nat) : Int) := by
          have h1 : ((pv - (metadataSize : Int)).toNat : Int) =
              pv - (metadataSize : Int) := Int.toNat_of_nonneg hv.1
          have h2 : (b.addr : Int) = ((pv - (metadataSize : Int)).toNat : Int) := by
            exact_mod_cast congrArg (Nat.cast : Nat → Int) hab
          push_cast at h1 h2 ⊢
          omega
        rcases List.append_of_mem hbmem with ⟨pre, post, hdec⟩
        rcases hInv with ⟨hwf0, hnaf0, hperm0⟩
        have hwfd : chainFrom 0 (pre ++ b :: post) HEAP_SIZE := by
          unfold blocksWF at hwf0
          rw [hdec] at hwf0
          exact hwf0
        have hnd := chainFrom_nodup _ _ _ hwfd
        rcases wf_decomp_notmem pre post b hwfd with ⟨hpren, hpostn⟩
        rcases chain_decomp pre post b HEAP_SIZE hwfd with
          ⟨m, hcpre, hbm, hb24, hbmod, hcpost⟩
        have hnafd : noAdjFree (pre ++ b :: post) := by
          rw [hdec] at hnaf0
          exact hnaf0
        rcases noAdjFree_decomp pre post b hnafd with ⟨hnpre, hnpost, hnL, hnR⟩
        have hpermd : st.freeList.Perm (freeAddrs pre ++ freeAddrs post) := by
          rw [hdec, freeAddrs_append, freeAddrs_cons_used _ _ hbf2] at hperm0
          exact hperm0
        rcases my_free_spec st pre post b hwf0 hdec hbf2 with ⟨st', hrun, hcases⟩
        rw [hqq, hrun]
        show Inv st'
        rcases hcases with ⟨hpostF, hpreF, rfl⟩ | ⟨n, post2, rfl, hnf, hpreF, rfl⟩ |
          ⟨pre0, qq, rfl, hqf, hpostF, rfl⟩ |
          ⟨pre0, qq, n, post2, rfl, rfl, hqf, hnf, rfl⟩
        · -- no merge
          refine ⟨?_, ?_, ?_⟩
          · exact chainFrom_congr_mid pre post b _ 0 _ hwfd rfl rfl
          · refine noAdjFree_mid1 pre post _ hnpre hnpost ?_ ?_
            · intro x hx hc
              rw [hpreF x hx] at hc
              simp at hc
            · intro y hy hc
              rw [hpostF y hy] at hc
              simp at hc
          · show (b.addr :: st.freeList).Perm _
            rw [freeAddrs_append, freeAddrs_cons_free _ _ rfl]
            exact List.Perm.trans (List.Perm.cons _ hpermd) List.perm_middle.symm
        · -- forward merge only
          rcases hcpost with ⟨hna, hn24, hnmod, hcrest⟩
          unfold noAdjFree at hnpost
          have hcc := List.chain'_cons'.mp hnpost
          have hnin : n.addr ∉ freeAddrs pre := by
            intro hmem
            have h1 := freeAddrs_subset_addrs pre n.addr hmem
            rw [List.map_append, List.map_cons, List.map_cons] at hnd
            have hre : pre.map Block.addr ++ b.addr :: n.addr ::
                post2.map Block.addr = (pre.map Block.addr ++ [b.addr]) ++
                n.addr :: post2.map Block.addr := by simp
            rw [hre] at hnd
            have h2 := notmem_of_nodup_prefix _ _ _ hnd
            exact h2 (List.mem_append.mpr (Or.inl h1))
          refine ⟨?_, ?_, ?_⟩
          · refine (chainFrom_append _ _ _ _).mpr ⟨m, hcpre, hbm, ?_, ?_, ?_⟩
            · show metadataSize ≤ b.size + n.size
              omega
            · show (b.size + n.size) % ALIGN_SIZE = 0
              simp only [ALIGN_SIZE] at hbmod hnmod ⊢
              omega
            · show chainFrom (m + (b.size + n.size)) post2 HEAP_SIZE
              rw [← Nat.add_assoc]
              exact hcrest
          · refine noAdjFree_mid1 pre post2 _ hnpre (List.chain'_cons'.mp hnpost).2 ?_ ?_
            · intro x hx hc
              rw [hpreF x hx] at hc
              simp at hc
            · intro y hy hc
              exact hcc.1 y hy ⟨hnf, hc.2⟩
          · show (b.addr :: st.freeList.erase n.addr).Perm _
            rw [freeAddrs_append, freeAddrs_cons_free _ _ rfl]
            rw [freeAddrs_cons_free _ _ hnf] at hpermd
            refine List.Perm.trans (List.Perm.cons _ ?_) List.perm_middle.symm
            refine (hpermd.erase n.addr).trans ?_
            rw [List.erase_append_right _ hnin, List.erase_cons_head]
        · -- backward merge only
          rcases (chainFrom_append pre0 [qq] 0 m).mp hcpre with ⟨m0, hcpre0, hqm⟩
          rcases hqm with ⟨hqa, hq24, hqmod, hqrest⟩
          rw [chainFrom_nil] at hqrest
          rcases noAdjFree_decomp pre0 [] qq hnpre with ⟨hnpre0, -, hqedge, -⟩
          refine ⟨?_, ?_, ?_⟩
          · refine (chainFrom_append _ _ _ _).mpr ⟨m0, hcpre0, ?_, ?_, ?_, ?_⟩
            · exact hqa
            · show metadataSize ≤ qq.size + b.size
              omega
            · show (qq.size + b.size) % ALIGN_SIZE = 0
              simp only [ALIGN_SIZE] at hqmod hbmod ⊢
              omega
            · show chainFrom (m0 + (qq.size + b.size)) post HEAP_SIZE
              have harith : m0 + (qq.size + b.size) = m + b.size := by omega
              rw [harith]
              exact hcpost
          · refine noAdjFree_mid1 pre0 post _ hnpre0 hnpost ?_ ?_
            · intro x hx hc
              exact hqedge x hx ⟨hc.1, hqf⟩
            · intro y hy hc
              rw [hpostF y hy] at hc
              simp at hc
          · show st.freeList.Perm _
            rw [freeAddrs_append, freeAddrs_cons_free _ _ (by exact hqf)]
            have hfa : freeAddrs (pre0 ++ [qq]) = freeAddrs pre0 ++ [qq.addr] := by
              rw [freeAddrs_append]
              simp [freeAddrs, hqf]
            rw [hfa] at hpermd
            refine hpermd.trans ?_
            rw [List.append_assoc]
            rfl
        · -- both neighbours merge
          rcases hcpost with ⟨hna, hn24, hnmod, hcrest⟩
          rcases (chainFrom_append pre0 [qq] 0 m).mp hcpre with ⟨m0, hcpre0, hqm⟩
          rcases hqm with ⟨hqa, hq24, hqmod, hqrest⟩
          rw [chainFrom_nil] at hqrest
          rcases noAdjFree_decomp pre0 [] qq hnpre with ⟨hnpre0, -, hqedge, -⟩
          unfold noAdjFree at hnpost
          have hcc := List.chain'_cons'.mp hnpost
          have hnin : n.addr ∉ freeAddrs pre0 ++ [qq.addr] := by
            have hre : ((pre0 ++ [qq]) ++ b :: n :: post2).map Block.addr =
                ((pre0.map Block.addr ++ [qq.addr]) ++ [b.addr]) ++
                  n.addr :: post2.map Block.addr := by simp
            rw [hre] at hnd
            have h2 := notmem_of_nodup_prefix _ _ _ hnd
            intro hmem
            refine h2 (List.mem_append.mpr (Or.inl ?_))
            rcases List.mem_append.mp hmem with h3 | h3
            · exact List.mem_append.mpr
                (Or.inl (freeAddrs_subset_addrs pre0 n.addr h3))
            · exact List.mem_append.mpr (Or.inr h3)
          refine ⟨?_, ?_, ?_⟩
          · refine (chainFrom_append _ _ _ _).mpr ⟨m0, hcpre0, ?_, ?_, ?_, ?_⟩
            · exact hqa
            · show metadataSize ≤ qq.size + (b.size + n.size)
              omega
            · show (qq.size + (b.size + n.size)) % ALIGN_SIZE = 0
              simp only [ALIGN_SIZE] at hqmod hbmod hnmod ⊢
              omega
            · show chainFrom (m0 + (qq.size + (b.size + n.size))) post2 HEAP_SIZE
              have harith : m0 + (qq.size + (b.size + n.size)) =
                  m + b.size + n.size := by omega
              rw [harith]
              exact hcrest
          · refine noAdjFree_mid1 pre0 post2 _ hnpre0 (List.chain'_cons'.mp hnpost).2 ?_ ?_
            · intro x hx hc
              exact hqedge x hx ⟨hc.1, hqf⟩
            · intro y hy hc
              exact hcc.1 y hy ⟨hnf, hc.2⟩
          · show (st.freeList.erase n.addr).Perm _
            rw [freeAddrs_append, freeAddrs_cons_free _ _ (by exact hqf)]
            have hfa : freeAddrs ((pre0 ++ [qq])) = freeAddrs pre0 ++ [qq.addr] := by
              rw [freeAddrs_append]
              simp [freeAddrs, hqf]
            rw [hfa, freeAddrs_cons_free _ _ hnf] at hpermd
            refine (hpermd.erase n.addr).trans ?_
            have hre2 : freeAddrs pre0 ++ [qq.addr] ++ n.addr :: freeAddrs post2 =
                (freeAddrs pre0 ++ [qq.addr]) ++ n.addr :: freeAddrs post2 := by simp
            rw [hre2, List.erase_append_right _ hnin, List.erase_cons_head,
              List.append_assoc]
            rfl

/-! ### The reachable-state invariant -/

theorem inv_init : Inv initState := by
  refine ⟨by decide, by decide, ?_⟩
  exact List.Perm.refl _

theorem reach_inv (st : AllocState) (h : Reachable st) : Inv st := by
  induction h with
  | init => exact inv_init
  | malloc st s hr hok ih => exact inv_malloc st s hok ih
  | free st p hr hok ih => exact inv_free st p ih

/-! ### Consequences of the partition shape -/

theorem addr_inj (bs : List Block) (hnd : (bs.map Block.addr).Nodup)
    (b c : Block) (hb : b ∈ bs) (hc : c ∈ bs) (h : b.addr = c.addr) : b = c :=
  List.inj_on_of_nodup_map hnd hb hc h

theorem chain_pairwise_disjoint (bs : List Block) (a e : Nat) (h : chainFrom a bs e) :
    ∀ b ∈ bs, ∀ c ∈ bs, b.addr ≠ c.addr →
      (b.addr + b.size ≤ c.addr ∨ c.addr + c.size ≤ b.addr) := by
  induction bs generalizing a with
  | nil => intro b hb; cases hb
  | cons d ds ih =>
    rcases h with ⟨hda, hd24, hdmod, hrest⟩
    intro b hb c hc hne
    rcases List.mem_cons.mp hb with rfl | hb2
    · rcases List.mem_cons.mp hc with rfl | hc2
      · exact absurd rfl hne
      · have := (chainFrom_mem_bounds _ _ _ hrest c hc2).1
        left
        omega
    · rcases List.mem_cons.mp hc with rfl | hc2
      · have := (chainFrom_mem_bounds _ _ _ hrest b hb2).1
        right
        omega
      · exact ih (a + d.size) hrest b hb2 c hc2 hne

theorem chain_sizes_sum (bs : List Block) (a e : Nat) (h : chainFrom a bs e) :
    a + (bs.map Block.size).sum = e := by
  induction bs generalizing a with
  | nil => simpa using h
  | cons d ds ih =>
    rcases h with ⟨-, -, -, hrest⟩
    have := ih (a + d.size) hrest
    simp only [List.map_cons, List.sum_cons]
    omega

theorem heapWalkFreeSum_eq (bs : List Block) :
    heapWalkFreeSum bs =
      ((bs.filter (fun b => b.isFree)).map (fun b => b.size - metadataSize)).sum := by
  induction bs with
  | nil => rfl
  | cons b bs ih =>
    cases hb : b.isFree with
    | true => simp [heapWalkFreeSum, List.filter_cons, hb, ih]
    | false => simp [heapWalkFreeSum, List.filter_cons, hb, ih]

theorem free_sum_le (bs : List Block) :
    ((bs.filter (fun b => b.isFree)).map (fun b => b.size - metadataSize)).sum ≤
      (bs.map Block.size).sum := by
  induction bs with
  | nil => simp
  | cons b bs ih =>
    cases hb : b.isFree with
    | true =>
      simp [List.filter_cons, hb]
      omega
    | false =>
      simp [List.filter_cons, hb]
      omega

theorem freeAddrs_nodup (bs : List Block) (hnd : (bs.map Block.addr).Nodup) :
    (freeAddrs bs).Nodup := by
  refine List.Nodup.sublist ?_ hnd
  unfold freeAddrs
  exact List.Sublist.map Block.addr (List.filter_sublist bs)

theorem blockSizeAt_of_mem (bs : List Block) (hnd : (bs.map Block.addr).Nodup)
    (b : Block) (hb : b ∈ bs) : blockSizeAt bs b.addr = b.size := by
  rcases List.append_of_mem hb with ⟨l1, l2, rfl⟩
  refine blockSizeAt_append l1 l2 b b.addr rfl ?_
  rw [List.map_append, List.map_cons] at hnd
  exact notmem_of_nodup_prefix _ _ _ hnd

theorem freeAddrs_map_size (bs : List Block) (hnd : (bs.map Block.addr).Nodup) :
    (freeAddrs bs).map (fun a => blockSizeAt bs a - metadataSize) =
      (bs.filter (fun b => b.isFree)).map (fun b => b.size - metadataSize) := by
  unfold freeAddrs
  rw [List.map_map]
  refine List.map_congr_left ?_
  intro b hb
  have hbmem : b ∈ bs := (List.mem_filter.mp hb).1
  simp only [Function.comp_apply]
  rw [blockSizeAt_of_mem bs hnd b hbmem]

/-- Evaluating the free-list walk of `get_free_memory` when every listed
block is sane: the `size_t` wrap-arounds vanish and the walk computes the
plain sum of `size - metadataSize`. -/
theorem fold_free_eq (bs : List Block) (fl : List Nat) (acc : Nat)
    (hsz : ∀ a ∈ fl, metadataSize ≤ blockSizeAt bs a ∧ blockSizeAt bs a < U64)
    (hacc : acc + (fl.map (fun a => blockSizeAt bs a - metadataSize)).sum < U64) :
    fl.foldl (fun acc a =>
        (acc + (blockSizeAt bs a + (U64 - metadataSize)) % U64) % U64) acc =
      acc + (fl.map (fun a => blockSizeAt bs a - metadataSize)).sum := by
  induction fl generalizing acc with
  | nil => simp
  | cons a as ih =>
    have h1 := hsz a (List.mem_cons_self _ _)
    simp only [List.map_cons, List.sum_cons] at hacc
    have hstep : (blockSizeAt bs a + (U64 - metadataSize)) % U64 =
        blockSizeAt bs a - metadataSize := by
      simp only [U64, metadataSize] at *
      omega
    have houter : (acc + (blockSizeAt bs a - metadataSize)) % U64 =
        acc + (blockSizeAt bs a - metadataSize) := by
      apply Nat.mod_eq_of_lt
      omega
    simp only [List.foldl_cons, hstep, houter]
    rw [ih (acc + (blockSizeAt bs a - metadataSize)) (fun x hx => hsz x (by simp [hx]))
      (by omega)]
    simp only [List.map_cons, List.sum_cons]
    omega

/-- In an invariant state the free-list walk of `get_free_memory` agrees
with the free accumulator of the address-ordered heap walk. -/
theorem free_memory_eq_walk (st : AllocState) (hInv : Inv st) :
    get_free_memory st = heapWalkFreeSum st.blocks := by
  rcases hInv with ⟨hwf, -, hperm⟩
  unfold blocksWF at hwf
  have hnd := chainFrom_nodup _ _ _ hwf
  have hsum := chain_sizes_sum _ _ _ hwf
  have hszs : ∀ a ∈ st.freeList,
      metadataSize ≤ blockSizeAt st.blocks a ∧ blockSizeAt st.blocks a < U64 := by
    intro a ha
    have ha2 : a ∈ freeAddrs st.blocks := hperm.mem_iff.mp ha
    rcases mem_freeAddrs _ _ ha2 with ⟨b, hb, hbf, rfl⟩
    rw [blockSizeAt_of_mem st.blocks hnd b hb]
    have h24 := (chainFrom_size_pos _ _ _ hwf b hb).1
    have hbd := (chainFrom_mem_bounds _ _ _ hwf b hb).2
    simp only [U64, HEAP_SIZE] at *
    omega
  have hmap : (st.freeList.map (fun a => blockSizeAt st.blocks a - metadataSize)).sum =
      ((st.blocks.filter (fun b => b.isFree)).map
        (fun b => b.size - metadataSize)).sum := by
    rw [(hperm.map (fun a => blockSizeAt st.blocks a - metadataSize)).sum_eq,
      freeAddrs_map_size st.blocks hnd]
  have hbound : (st.freeList.map
      (fun a => blockSizeAt st.blocks a - metadataSize)).sum < U64 := by
    rw [hmap]
    have h1 := free_sum_le st.blocks
    simp only [U64, HEAP_SIZE] at *
    omega
  have hfold := fold_free_eq st.blocks st.freeList 0 hszs (by omega)
  unfold get_free_memory
  rw [hfold, heapWalkFreeSum_eq, hmap]
  omega

/-! ### Reading back a freed header -/

theorem notmem_of_nodup_mid (l1 l2 : List Nat) (y : Nat)
    (hnd : (l1 ++ y :: l2).Nodup) : y ∉ l1 ∧ y ∉ l2 := by
  rcases List.nodup_cons.mp (List.nodup_middle.mp hnd) with ⟨hm, -⟩
  simp only [List.mem_append, not_or] at hm
  exact hm

/-- Releasing a pointer whose recovered header is a live free block reports
a double free and changes nothing. -/
theorem my_free_double_live (st : AllocState) (pre post : List Block) (B : Block)
    (hdec : st.blocks = pre ++ B :: post) (hBf : B.isFree = true)
    (hpren : B.addr ∉ pre.map Block.addr) (hBH : B.addr < HEAP_SIZE) :
    my_free st (some ((B.addr + metadataSize : Nat) : Int)) =
      (st, some FreeError.doubleFree) := by
  have hbaeq : ((B.addr + metadataSize : Nat) : Int) - (metadataSize : Int) =
      (B.addr : Int) := by
    push_cast
    ring
  have hcond : 0 ≤ ((B.addr : Int)) ∧ ((B.addr : Int)) < (HEAP_SIZE : Int) :=
    ⟨Int.natCast_nonneg _, by exact_mod_cast hBH⟩
  have hfind : findBlock st.blocks B.addr = some B := by
    rw [hdec]
    exact findBlock_append pre post B B.addr rfl hpren
  unfold my_free
  simp only []
  rw [hbaeq, if_pos hcond]
  simp only [Int.toNat_natCast]
  rw [hfind]
  simp only []
  rw [if_pos hBf]

/-- Releasing a pointer whose recovered header was absorbed by coalescing
still reads `is_free = true` from the stale header bytes and reports a
double free. -/
theorem my_free_double_stale (st : AllocState) (a : Nat)
    (hnb : a ∉ st.blocks.map Block.addr) (hstale : a ∈ st.stale)
    (haH : a < HEAP_SIZE) :
    my_free st (some ((a + metadataSize : Nat) : Int)) =
      (st, some FreeError.doubleFree) := by
  have hbaeq : ((a + metadataSize : Nat) : Int) - (metadataSize : Int) =
      (a : Int) := by
    push_cast
    ring
  have hcond : 0 ≤ ((a : Int)) ∧ ((a : Int)) < (HEAP_SIZE : Int) :=
    ⟨Int.natCast_nonneg _, by exact_mod_cast haH⟩
  have hfind : findBlock st.blocks a = none := findBlock_not_mem _ _ hnb
  unfold my_free
  simp only []
  rw [hbaeq, if_pos hcond]
  simp only [Int.toNat_natCast]
  rw [hfind]
  simp only []
  rw [if_pos hstale]

/-! ### Claim theorems -/

/-- C3: for every non-null pointer whose recovered header address
`p - metadataSize` lies outside `[0, HEAP_SIZE)`, `my_free` reports an
invalid-pointer error and performs no state mutation; being a total
function it returns normally. -/
theorem c3_invalid_pointer (st : AllocState) (p : Int)
    (h : p - (metadataSize : Int) < 0 ∨ (HEAP_SIZE : Int) ≤ p - (metadataSize : Int)) :
    my_free st (some p) = (st, some FreeError.invalidPtr) := by
  unfold my_free
  simp only []
  rw [if_neg]
  intro hc
  rcases h with h | h
  · omega
  · omega

theorem c3_witness :
    my_free initState (some 0) = (initState, some FreeError.invalidPtr) :=
  c3_invalid_pointer initState 0 (Or.inl (by decide))

/-- C4 (amended): for requests whose `size_t` total does not wrap (here:
`req ≤ HEAP_SIZE`), when an allocation splits a free block the two
resulting blocks' sizes sum to the original size; and the split is skipped
(the whole block handed out) exactly when the remainder
`block.size - total` is smaller than the minimum block size. -/
theorem c4_split_conservation (st : AllocState) (pre post : List Block) (b : Block)
    (a req : Nat) (hdec : st.blocks = pre ++ b :: post) (hba : b.addr = a)
    (hpre : a ∉ pre.map Block.addr)
    (hreq : req ≤ HEAP_SIZE) (hbsz : b.size ≤ HEAP_SIZE) :
    (b.size - (metadataSize + align_size req) < get_min_block_size →
      split_block st a req = st) ∧
    (get_min_block_size ≤ b.size - (metadataSize + align_size req) →
      (split_block st a req).blocks =
        pre ++ { b with size := metadataSize + align_size req } ::
          ⟨a + (metadataSize + align_size req),
            b.size - (metadataSize + align_size req), true⟩ :: post ∧
      (metadataSize + align_size req) +
        (b.size - (metadataSize + align_size req)) = b.size ∧
      split_block st a req ≠ st) := by
  have hsmall : req + ALIGN_SIZE - 1 < U64 := by
    simp only [HEAP_SIZE, U64, ALIGN_SIZE] at *
    omega
  have halign : align_size req ≤ req + ALIGN_SIZE - 1 := align_size_le req hsmall
  have htot : (metadataSize + align_size req) % U64 = metadataSize + align_size req := by
    apply Nat.mod_eq_of_lt
    simp only [metadataSize, U64, HEAP_SIZE, ALIGN_SIZE] at *
    omega
  have hmodg : ((metadataSize + align_size req) % U64 + get_min_block_size) % U64 =
      metadataSize + align_size req + get_min_block_size := by
    rw [htot]
    apply Nat.mod_eq_of_lt
    rw [min_block_eq]
    simp only [metadataSize, U64, HEAP_SIZE, ALIGN_SIZE] at *
    omega
  have hbsa : blockSizeAt st.blocks a = b.size := by
    rw [hdec]
    exact blockSizeAt_append pre post b a hba hpre
  constructor
  · intro hrem
    rw [min_block_eq] at hrem
    unfold split_block
    simp only [hbsa, hmodg]
    simp only [htot]
    rw [min_block_eq, if_pos (by omega)]
  · intro hrem
    rw [min_block_eq] at hrem
    have hblocks : (split_block st a req).blocks =
        pre ++ { b with size := metadataSize + align_size req } ::
          ⟨a + (metadataSize + align_size req),
            b.size - (metadataSize + align_size req), true⟩ :: post := by
      unfold split_block
      simp only [hbsa, hmodg]
      simp only [htot]
      rw [min_block_eq, if_neg (by omega)]
      simp only []
      rw [hdec]
      exact splitBlocks_append pre post b a _ hba hpre
        (by simp only [metadataSize]; omega)
    refine ⟨hblocks, by omega, ?_⟩
    intro hceq
    have hlen : (split_block st a req).blocks.length = st.blocks.length := by
      rw [hceq]
    rw [hblocks, hdec] at hlen
    simp at hlen

theorem c4_witness :
    ((⟨0, HEAP_SIZE, true⟩ : Block).size - (metadataSize + align_size 100) <
        get_min_block_size →
      split_block initState 0 100 = initState) ∧
    (get_min_block_size ≤
        (⟨0, HEAP_SIZE, true⟩ : Block).size - (metadataSize + align_size 100) →
      (split_block initState 0 100).blocks =
        [] ++ { (⟨0, HEAP_SIZE, true⟩ : Block) with
            size := metadataSize + align_size 100 } ::
          ⟨0 + (metadataSize + align_size 100),
            (⟨0, HEAP_SIZE, true⟩ : Block).size - (metadataSize + align_size 100),
            true⟩ :: [] ∧
      (metadataSize + align_size 100) +
        ((⟨0, HEAP_SIZE, true⟩ : Block).size - (metadataSize + align_size 100)) =
          (⟨0, HEAP_SIZE, true⟩ : Block).size ∧
      split_block initState 0 100 ≠ initState) :=
  c4_split_conservation initState [] [] ⟨0, HEAP_SIZE, true⟩ 0 100 rfl rfl
    (by decide) (by decide) (by decide)

/-- C4 counterexample: the request `2^64 - 24` wraps the C `total_size`
computation to `0`; the split guard `block->size < total_size + 32` is
then `1048576 < 32`, false, so the split path runs even though the
remainder `1048576 - 0` is far above the minimum block size — but
`new_block` (`block + 0`) aliases the block's own header, and the field
writes leave a single block of size `0`: the resulting sizes sum to `0`,
not to the original `1048576`, refuting both the conservation and the
exactly-when clause for unrestricted request sizes. -/
theorem c4_counterexample :
    get_min_block_size ≤
      HEAP_SIZE - (metadataSize + align_size (2 ^ 64 - 24)) % U64 ∧
    split_block initState 0 (2 ^ 64 - 24) ≠ initState ∧
    (split_block initState 0 (2 ^ 64 - 24)).blocks = [⟨0, 0, true⟩] ∧
    ((split_block initState 0 (2 ^ 64 - 24)).blocks.map Block.size).sum ≠
      HEAP_SIZE := by
  decide

/-- C6: on a freshly initialized heap, every request of size `1 ≤ s ≤
HEAP_SIZE - metadataSize` succeeds (non-null result). -/
theorem c6_fresh_alloc (s : Nat) (h1 : 1 ≤ s) (h2 : s ≤ HEAP_SIZE - metadataSize) :
    ∃ p, (my_malloc initState s).2 = some p := by
  have hs0 : s ≠ 0 := by omega
  have hsmall : s + ALIGN_SIZE - 1 < U64 := by
    simp only [HEAP_SIZE, metadataSize, U64, ALIGN_SIZE] at *
    omega
  have halign : align_size s ≤ HEAP_SIZE - metadataSize := by
    rw [align_size_small s hsmall]
    have hstep : s + ALIGN_SIZE - 1 ≤ 1048559 := by
      simp only [HEAP_SIZE, metadataSize, ALIGN_SIZE] at *
      omega
    have hd : (s + ALIGN_SIZE - 1) / ALIGN_SIZE ≤ 131069 := by
      calc (s + ALIGN_SIZE - 1) / ALIGN_SIZE ≤ 1048559 / ALIGN_SIZE :=
            Nat.div_le_div_right hstep
        _ = 131069 := by decide
    calc (s + ALIGN_SIZE - 1) / ALIGN_SIZE * ALIGN_SIZE ≤ 131069 * ALIGN_SIZE :=
          Nat.mul_le_mul_right _ hd
      _ = HEAP_SIZE - metadataSize := by decide
  have htot : (metadataSize + align_size s) % U64 = metadataSize + align_size s := by
    apply Nat.mod_eq_of_lt
    simp only [metadataSize, U64, HEAP_SIZE] at *
    omega
  have hff : firstFit initState.blocks ((metadataSize + align_size s) % U64)
      initState.freeList = some 0 := by
    show firstFit initState.blocks ((metadataSize + align_size s) % U64) [0] = some 0
    unfold firstFit
    rw [if_pos]
    rw [htot]
    show metadataSize + align_size s ≤ HEAP_SIZE
    simp only [metadataSize, HEAP_SIZE] at *
    omega
  unfold my_malloc
  rw [if_neg hs0]
  simp only []
  rw [hff]
  exact ⟨0 + metadataSize, rfl⟩

theorem c6_witness : ∃ p, (my_malloc initState 1).2 = some p :=
  c6_fresh_alloc 1 (by decide) (by decide)

/-- C2: if a release succeeds on pointer `p` and `p` is released again with
no intervening operation, the second call reports a double-free error and
returns the state unchanged (hence `used_bytes`/`free_bytes` and all block
metadata and free-list links are unchanged).  Whether the freed header is
still a live block or was absorbed into a neighbour (and survives only as
stale header bytes), the `is_free` flag read by the check is true. -/
theorem c2_double_free (st st1 : AllocState) (p : Int)
    (hInv : Inv st) (h1 : my_free st (some p) = (st1, none)) :
    my_free st1 (some p) = (st1, some FreeError.doubleFree) := by
  by_cases hv : 0 ≤ p - (metadataSize : Int) ∧ p - (metadataSize : Int) < (HEAP_SIZE : Int)
  case neg =>
    have hred : my_free st (some p) = (st, some FreeError.invalidPtr) := by
      unfold my_free
      simp only []
      rw [if_neg hv]
    rw [hred] at h1
    have := congrArg Prod.snd h1
    simp at this
  case pos =>
    cases hf : findBlock st.blocks ((p - (metadataSize : Int)).toNat) with
    | none =>
      by_cases hst : (p - (metadataSize : Int)).toNat ∈ st.stale
      · have hred : my_free st (some p) = (st, some FreeError.doubleFree) := by
          unfold my_free
          simp only []
          rw [if_pos hv, hf]
          simp only []
          rw [if_pos hst]
        rw [hred] at h1
        have := congrArg Prod.snd h1
        simp at this
      · have hred : my_free st (some p) = (st, some FreeError.unmodeledRead) := by
          unfold my_free
          simp only []
          rw [if_pos hv, hf]
          simp only []
          rw [if_neg hst]
        rw [hred] at h1
        have := congrArg Prod.snd h1
        simp at this
    | some b =>
      by_cases hbf : b.isFree = true
      · have hred : my_free st (some p) = (st, some FreeError.doubleFree) := by
          unfold my_free
          simp only []
          rw [if_pos hv, hf]
          simp only []
          rw [if_pos hbf]
        rw [hred] at h1
        have := congrArg Prod.snd h1
        simp at this
      · have hbf2 : b.isFree = false := Bool.eq_false_iff.mpr hbf
        obtain ⟨hbmem, hab⟩ := findBlock_mem _ _ _ hf
        have hqq : p = ((b.addr + metadataSize : Nat) : Int) := by
          have hh1 : ((p - (metadataSize : Int)).toNat : Int) =
              p - (metadataSize : Int) := Int.toNat_of_nonneg hv.1
          have hh2 : (b.addr : Int) = ((p - (metadataSize : Int)).toNat : Int) := by
            exact_mod_cast congrArg (Nat.cast : Nat → Int) hab
          push_cast at hh1 hh2 ⊢
          omega
        rcases List.append_of_mem hbmem with ⟨pre, post, hdec⟩
        have hwfd : chainFrom 0 (pre ++ b :: post) HEAP_SIZE := by
          have := hInv.1
          unfold blocksWF at this
          rw [hdec] at this
          exact this
        have hnd := chainFrom_nodup _ _ _ hwfd
        rcases wf_decomp_notmem pre post b hwfd with ⟨hpren, hpostn⟩
        have hbH : b.addr < HEAP_SIZE := by
          have h3 := (chainFrom_mem_bounds _ _ _ hwfd b (by simp)).2
          have h4 := (chainFrom_size_pos _ _ _ hwfd b (by simp)).1
          simp only [metadataSize, HEAP_SIZE] at *
          omega
        rcases my_free_spec st pre post b hInv.1 hdec hbf2 with ⟨st', hrun, hcases⟩
        rw [hqq] at h1
        rw [h1] at hrun
        injection hrun with hst1 hsnd
        subst hst1
        rw [hqq]
        rcases hcases with ⟨hpostF, hpreF, rfl⟩ | ⟨n, post2, rfl, hnf, hpreF, rfl⟩ |
          ⟨pre0, qq, rfl, hqf, hpostF, rfl⟩ |
          ⟨pre0, qq, n, post2, rfl, rfl, hqf, hnf, rfl⟩
        · exact my_free_double_live _ pre post ⟨b.addr, b.size, true⟩ rfl rfl
            hpren hbH
        · exact my_free_double_live _ pre post2 ⟨b.addr, b.size + n.size, true⟩
            rfl rfl hpren hbH
        · -- absorbed into the predecessor: the stale header is read back
          apply my_free_double_stale _ b.addr ?_ (List.mem_cons_self _ _) hbH
          rw [List.map_append, List.map_cons] at hnd ⊢
          have hre : (pre0 ++ [qq]).map Block.addr ++ b.addr :: post.map Block.addr =
              ((pre0 ++ [qq]).map Block.addr) ++ b.addr :: post.map Block.addr := rfl
          rcases notmem_of_nodup_mid _ _ _ hnd with ⟨hm1, hm2⟩
          intro hmem
          simp only [List.mem_append, List.mem_cons] at hmem
          rcases hmem with h3 | h3 | h3
          · exact hm1 (by simpa using (Or.inl h3 :
              b.addr ∈ pre0.map Block.addr ∨ b.addr ∈ [qq.addr]))
          · exact hm1 (by
              simp only [List.map_append] at *
              exact List.mem_append.mpr (Or.inr (by simp [h3])))
          · exact hm2 h3
        · apply my_free_double_stale _ b.addr ?_ (List.mem_cons_self _ _) hbH
          rw [List.map_append, List.map_cons] at hnd ⊢
          rcases notmem_of_nodup_mid _ _ _ hnd with ⟨hm1, hm2⟩
          intro hmem
          simp only [List.mem_append, List.mem_cons] at hmem
          rcases hmem with h3 | h3 | h3
          · exact hm1 (by simpa using (Or.inl h3 :
              b.addr ∈ pre0.map Block.addr ∨ b.addr ∈ [qq.addr]))
          · exact hm1 (by
              simp only [List.map_append] at *
              exact List.mem_append.mpr (Or.inr (by simp [h3])))
          · exact hm2 (by simp [h3])

theorem c2_witness :
    my_free ((my_free (my_malloc initState 100).1 (some 24)).1) (some 24) =
      ((my_free (my_malloc initState 100).1 (some 24)).1,
        some FreeError.doubleFree) :=
  c2_double_free (my_malloc initState 100).1
    (my_free (my_malloc initState 100).1 (some 24)).1 24
    (by decide) (by decide)

/-- C10: in every reachable state, two blocks adjacent in address order
(the successor starts exactly where its predecessor ends) are never both
free. -/
theorem c10_no_adjacent_free (st : AllocState) (h : Reachable st)
    (pre post : List Block) (x y : Block)
    (hdec : st.blocks = pre ++ x :: y :: post) :
    x.addr + x.size = y.addr ∧ ¬(x.isFree = true ∧ y.isFree = true) := by
  have hInv := reach_inv st h
  have hwfd : chainFrom 0 (pre ++ x :: y :: post) HEAP_SIZE := by
    have h2 := hInv.1
    unfold blocksWF at h2
    rw [hdec] at h2
    exact h2
  rcases chain_decomp pre (y :: post) x HEAP_SIZE hwfd with ⟨m, -, hxm, -, -, hcpost⟩
  rcases hcpost with ⟨hya, -, -, -⟩
  have hnaf : noAdjFree (pre ++ x :: y :: post) := by
    have h2 := hInv.2.1
    rw [hdec] at h2
    exact h2
  rcases noAdjFree_decomp pre (y :: post) x hnaf with ⟨-, -, -, hedge⟩
  exact ⟨by omega, hedge y (by simp)⟩

theorem c10_witness :
    (⟨0, 128, false⟩ : Block).addr + (⟨0, 128, false⟩ : Block).size =
      (⟨128, 1048448, true⟩ : Block).addr ∧
    ¬((⟨0, 128, false⟩ : Block).isFree = true ∧
      (⟨128, 1048448, true⟩ : Block).isFree = true) :=
  c10_no_adjacent_free (my_malloc initState 100).1
    (Reachable.malloc initState 100 Reachable.init (by decide))
    [] [] ⟨0, 128, false⟩ ⟨128, 1048448, true⟩ (by decide)

/-- C8 (amended): in every state reachable with non-wrapping allocation
sizes and modelled release pointers, a block is a free-list member exactly
when its `is_free` flag is set, and the free-list walk of
`get_free_memory` agrees with the free accumulator of the address-ordered
heap walk. -/
theorem c8_free_list_iff (st : AllocState) (h : Reachable st) :
    (∀ b ∈ st.blocks, (b.addr ∈ st.freeList ↔ b.isFree = true)) ∧
    get_free_memory st = heapWalkFreeSum st.blocks := by
  have hInv := reach_inv st h
  refine ⟨?_, free_memory_eq_walk st hInv⟩
  intro b hb
  have hnd : (st.blocks.map Block.addr).Nodup := by
    have h2 := hInv.1
    unfold blocksWF at h2
    exact chainFrom_nodup _ _ _ h2
  constructor
  · intro hmem
    have h2 : b.addr ∈ freeAddrs st.blocks := hInv.2.2.mem_iff.mp hmem
    rcases mem_freeAddrs _ _ h2 with ⟨c, hc, hcf, hca⟩
    have hcb : c = b := addr_inj st.blocks hnd c b hc hb hca
    rw [← hcb]
    exact hcf
  · intro hbf
    apply hInv.2.2.mem_iff.mpr
    exact List.mem_map.mpr ⟨b, List.mem_filter.mpr ⟨hb, by simp [hbf]⟩, rfl⟩

theorem c8_witness :
    (∀ b ∈ initState.blocks, (b.addr ∈ initState.freeList ↔ b.isFree = true)) ∧
    get_free_memory initState = heapWalkFreeSum initState.blocks :=
  c8_free_list_iff initState Reachable.init

/-- C8 counterexample: requesting `2^64 - 24` bytes makes the C `total_size`
computation wrap to `0`; the split then overwrites the chosen block's own
header (`new_block` aliases `block`) and `my_malloc` leaves the free list
pointing at the block it just marked used — a free-list member whose
`is_free` is false, refuting the claim for arbitrary call sequences. -/
theorem c8_counterexample :
    ¬ (∀ b ∈ (my_malloc initState (2 ^ 64 - 24)).1.blocks,
        (b.addr ∈ (my_malloc initState (2 ^ 64 - 24)).1.freeList ↔
          b.isFree = true)) := by
  decide

/-- C7 (amended): in every state reachable with non-wrapping allocation
sizes and modelled release pointers, once every outstanding allocation has
been released (all blocks free), the heap has collapsed back to a single
free block: one fragment, and `free_bytes` equals the capacity minus the
single block's header. -/
theorem c7_full_circle (st : AllocState) (h : Reachable st)
    (hall : ∀ b ∈ st.blocks, b.isFree = true) :
    get_fragmentation_count st = 1 ∧
    get_free_memory st = HEAP_SIZE - metadataSize := by
  have hInv := reach_inv st h
  have hsingle : st.blocks = [⟨0, HEAP_SIZE, true⟩] := by
    rcases hbs : st.blocks with _ | ⟨b, rest⟩
    · exfalso
      have h2 := hInv.1
      unfold blocksWF at h2
      rw [hbs, chainFrom_nil] at h2
      exact absurd h2 (by decide)
    · rcases rest with _ | ⟨c, rest2⟩
      · have hwf := hInv.1
        unfold blocksWF at hwf
        rw [hbs] at hwf
        rcases hwf with ⟨hba, -, -, hrest⟩
        rw [chainFrom_nil] at hrest
        have hbf := hall b (by rw [hbs]; simp)
        have hbeq : b = ⟨0, HEAP_SIZE, true⟩ := by
          have h2 : b.size = HEAP_SIZE := by omega
          obtain ⟨ad, sz, fr⟩ := b
          simp only at hba h2 hbf
          rw [hba, h2, hbf]
        rw [hbeq]
      · exfalso
        have hnaf := hInv.2.1
        rw [hbs] at hnaf
        have hbf := hall b (by rw [hbs]; simp)
        have hcf := hall c (by rw [hbs]; simp)
        unfold noAdjFree at hnaf
        rw [List.chain'_cons] at hnaf
        exact hnaf.1 ⟨hbf, hcf⟩
  have hperm := hInv.2.2
  rw [hsingle] at hperm
  have hfa : freeAddrs [(⟨0, HEAP_SIZE, true⟩ : Block)] = [0] := rfl
  rw [hfa] at hperm
  constructor
  · show st.freeList.length = 1
    rw [hperm.length_eq]
    rfl
  · rw [free_memory_eq_walk st hInv, hsingle]
    decide

theorem c7_witness :
    get_fragmentation_count initState = 1 ∧
    get_free_memory initState = HEAP_SIZE - metadataSize :=
  c7_full_circle initState Reachable.init (by decide)

/-- C7 counterexample: `my_malloc(2^64 - 24)` wraps `total_size` to `0` and
corrupts the single heap block to size `0` while handing out a non-null
pointer.  Releasing that sole outstanding pointer succeeds (every block is
free again and there is exactly one fragment), but `free_bytes` returns
`2^64 - 24` (the `size_t` wrap of `0 - 24`), not `HEAP_SIZE - 24`, exactly
as the C code does on this input. -/
theorem c7_counterexample :
    (my_malloc initState (2 ^ 64 - 24)).2 = some 24 ∧
    (my_free (my_malloc initState (2 ^ 64 - 24)).1 (some 24)).2 = none ∧
    (∀ b ∈ (my_free (my_malloc initState (2 ^ 64 - 24)).1 (some 24)).1.blocks,
      b.isFree = true) ∧
    get_fragmentation_count
      (my_free (my_malloc initState (2 ^ 64 - 24)).1 (some 24)).1 = 1 ∧
    get_free_memory (my_free (my_malloc initState (2 ^ 64 - 24)).1 (some 24)).1 ≠
      HEAP_SIZE - metadataSize := by
  decide

/-- C1 (amended): in every reachable state, a successful allocation returns
an 8-byte-aligned pointer into an in-use block that provides at least
`align_size s` usable bytes (and fewer than `align_size s` plus the minimum
block size — the unsplit slack), and whose span is disjoint from every
other in-use block's span. -/
theorem c1_alloc_guarantees (st : AllocState) (s : Nat) (st' : AllocState) (p : Nat)
    (hre : Reachable st) (hok : size_ok s) (h : my_malloc st s = (st', some p)) :
    p % ALIGN_SIZE = 0 ∧
    ∃ bl, bl ∈ st'.blocks ∧ bl.isFree = false ∧ p = bl.addr + metadataSize ∧
      metadataSize + align_size s ≤ bl.size ∧
      bl.size < metadataSize + align_size s + get_min_block_size ∧
      (∀ c ∈ st'.blocks, c.isFree = false → c.addr ≠ bl.addr →
        (c.addr + c.size ≤ bl.addr ∨ bl.addr + bl.size ≤ c.addr)) := by
  have hInv := reach_inv st hre
  have hInv' : Inv st' := by
    have h2 := inv_malloc st s hok hInv
    rw [h] at h2
    exact h2
  have hchain' : chainFrom 0 st'.blocks HEAP_SIZE := by
    have h2 := hInv'.1
    unfold blocksWF at h2
    exact h2
  have hdisj := chain_pairwise_disjoint st'.blocks 0 HEAP_SIZE hchain'
  rcases my_malloc_success st s st' p hInv hok h with
    ⟨pre, b, post, hdec, hbfree, hp, hfit, hbh, hstale, hcase⟩
  have hwfd : chainFrom 0 (pre ++ b :: post) HEAP_SIZE := by
    have h2 := hInv.1
    unfold blocksWF at h2
    rw [hdec] at h2
    exact h2
  have haddr8 : b.addr % ALIGN_SIZE = 0 :=
    chainFrom_addr_mod _ 0 _ hwfd (by decide) b (by simp)
  constructor
  · rw [hp]
    simp only [ALIGN_SIZE, metadataSize] at haddr8 ⊢
    omega
  · rcases hcase with ⟨hguard, hblocks, -⟩ | ⟨hguard, hblocks, -⟩
    · have hmem : { b with isFree := false } ∈ st'.blocks := by
        rw [hblocks]
        exact List.mem_append.mpr (Or.inr (List.mem_cons_self _ _))
      refine ⟨{ b with isFree := false }, hmem, rfl, hp, hfit, hguard, ?_⟩
      intro c hc hcf hne
      exact hdisj c hc _ hmem hne
    · have hmem : (⟨b.addr, metadataSize + align_size s, false⟩ : Block) ∈ st'.blocks := by
        rw [hblocks]
        exact List.mem_append.mpr (Or.inr (List.mem_cons_self _ _))
      refine ⟨⟨b.addr, metadataSize + align_size s, false⟩, hmem, rfl, hp,
        Nat.le_refl _, ?_, ?_⟩
      · show metadataSize + align_size s < metadataSize + align_size s + get_min_block_size
        rw [min_block_eq]
        omega
      · intro c hc hcf hne
        exact hdisj c hc _ hmem hne

theorem c1_witness :
    (24 : Nat) % ALIGN_SIZE = 0 ∧
    ∃ bl, bl ∈ (my_malloc initState 100).1.blocks ∧ bl.isFree = false ∧
      (24 : Nat) = bl.addr + metadataSize ∧
      metadataSize + align_size 100 ≤ bl.size ∧
      bl.size < metadataSize + align_size 100 + get_min_block_size ∧
      (∀ c ∈ (my_malloc initState 100).1.blocks, c.isFree = false →
        c.addr ≠ bl.addr →
        (c.addr + c.size ≤ bl.addr ∨ bl.addr + bl.size ≤ c.addr)) :=
  c1_alloc_guarantees initState 100 (my_malloc initState 100).1 24
    Reachable.init (by decide) (by decide)

/-- C1 counterexample: a request of `1048528` bytes on the fresh heap does
not split (the remainder `24` is below the minimum block size), so the
whole 1 MiB block is handed out: the returned pointer addresses
`HEAP_SIZE - 24 = 1048552` usable bytes, not exactly
`align_size 1048528 = 1048528`, refuting the claim's "exactly". -/
theorem c1_counterexample :
    (my_malloc initState 1048528).2 = some 24 ∧
    (my_malloc initState 1048528).1.blocks = [⟨0, HEAP_SIZE, false⟩] ∧
    HEAP_SIZE - metadataSize ≠ align_size 1048528 := by
  decide

/-! ### Walk termination (C9) -/

theorem usedWalk_zero_stuck (fuel acc : Nat) :
    usedWalk [⟨0, 0, false⟩] fuel 0 acc = WalkResult.fuelOut := by
  induction fuel generalizing acc with
  | zero => rfl
  | succ f ih =>
    unfold usedWalk
    rw [if_pos (by decide)]
    have hfb : findBlock [(⟨0, 0, false⟩ : Block)] 0 = some ⟨0, 0, false⟩ := rfl
    rw [hfb]
    simp only []
    exact ih _

/-- C9 counterexample: the `get_used_memory` walk has no corruption guard;
on a heap whose first header has `size = 0` the walk never advances, so no
step budget whatsoever completes it — the loop runs forever. -/
theorem c9_counterexample :
    ¬ ∃ fuel acc, usedWalk [⟨0, 0, false⟩] fuel 0 acc ≠ WalkResult.fuelOut := by
  rintro ⟨fuel, acc, hne⟩
  exact hne (usedWalk_zero_stuck fuel acc)

theorem dumpWalk_le (bs : List Block) :
    ∀ (fuel pos bn : Nat), 10001 - bn < fuel →
      dumpWalk bs fuel pos bn ≠ WalkResult.fuelOut := by
  intro fuel
  induction fuel with
  | zero =>
    intro pos bn h
    exact absurd h (Nat.not_lt_zero _)
  | succ f ih =>
    intro pos bn h
    unfold dumpWalk
    by_cases hp : pos < HEAP_SIZE
    · rw [if_pos hp]
      cases hfb : findBlock bs pos with
      | none => simp
      | some b =>
        simp only []
        by_cases hg : b.size = 0 ∨ bn + 1 > 10000
        · rw [if_pos hg]
          simp
        · rw [if_neg hg]
          apply ih
          push_neg at hg
          omega
    · rw [if_neg hp]
      simp

/-- C9 (amended): only the `print_heap_state` block walk carries the
corruption guard (`block->size == 0 || block_num > 10000`): it always stops
within 10002 steps, on any heap contents.  The `get_used_memory` walk has
no guard and loops forever on a heap with a zero-size block. -/
theorem c9_walk_guards :
    (∀ (bs : List Block) (pos : Nat), dumpWalk bs 10002 pos 0 ≠ WalkResult.fuelOut) ∧
    (∀ fuel acc, usedWalk [⟨0, 0, false⟩] fuel 0 acc = WalkResult.fuelOut) := by
  constructor
  · intro bs pos
    exact dumpWalk_le bs 10002 pos 0 (by decide)
  · exact usedWalk_zero_stuck

/-! ### Free-list membership counting (helpers for C5) -/

theorem blocks_addr_nodup (st : AllocState) (hInv : Inv st) :
    (st.blocks.map Block.addr).Nodup := by
  have h2 := hInv.1
  unfold blocksWF at h2
  exact chainFrom_nodup _ _ _ h2

theorem addr_not_in_freeList (st : AllocState) (hInv : Inv st) (b : Block)
    (hb : b ∈ st.blocks) (hbu : b.isFree = false) : b.addr ∉ st.freeList := by
  intro hmem
  have h2 : b.addr ∈ freeAddrs st.blocks := hInv.2.2.mem_iff.mp hmem
  rcases mem_freeAddrs _ _ h2 with ⟨c, hc, hcf, hca⟩
  have hcb := addr_inj st.blocks (blocks_addr_nodup st hInv) c b hc hb hca
  rw [hcb, hbu] at hcf
  exact absurd hcf (by decide)

theorem count_in_freeList (st : AllocState) (hInv : Inv st) (b : Block)
    (hb : b ∈ st.blocks) (hbf : b.isFree = true) :
    st.freeList.count b.addr = 1 := by
  have hmem : b.addr ∈ freeAddrs st.blocks := by
    unfold freeAddrs
    exact List.mem_map.mpr ⟨b, List.mem_filter.mpr ⟨hb, by simp [hbf]⟩, rfl⟩
  rw [hInv.2.2.count_eq]
  exact List.count_eq_one_of_mem (freeAddrs_nodup _ (blocks_addr_nodup st hInv)) hmem

theorem freeList_nodup (st : AllocState) (hInv : Inv st) : st.freeList.Nodup :=
  hInv.2.2.nodup_iff.mpr (freeAddrs_nodup _ (blocks_addr_nodup st hInv))

/-- C5: releasing a block whose maximal free neighbourhood is `P ++ b :: N`
(`P`, `N` the at-most-one free neighbours on each side, at least one of them
present, and the blocks beyond them not free) collapses the whole run into a
single free block whose size is the sum of the run's sizes; the merged block
appears exactly once on the free list and the absorbed headers' addresses do
not appear at all. -/
theorem c5_coalescing (st : AllocState) (pre post P N : List Block) (b : Block)
    (hInv : Inv st)
    (hdec : st.blocks = pre ++ (P ++ b :: N) ++ post)
    (hbu : b.isFree = false)
    (hP : ∀ x ∈ P, x.isFree = true) (hN : ∀ y ∈ N, y.isFree = true)
    (hP1 : P.length ≤ 1) (hN1 : N.length ≤ 1)
    (hrun : P ≠ [] ∨ N ≠ [])
    (hPmax : P = [] → ∀ x ∈ pre.getLast?, x.isFree = false)
    (hNmax : N = [] → ∀ y ∈ post.head?, y.isFree = false) :
    ∃ st' merged,
      my_free st (some ((b.addr + metadataSize : Nat) : Int)) = (st', none) ∧
      st'.blocks = pre ++ merged :: post ∧
      merged.isFree = true ∧
      merged.size = (P.map Block.size).sum + b.size + (N.map Block.size).sum ∧
      st'.freeList.count merged.addr = 1 ∧
      (∀ x ∈ P ++ b :: N, x.addr ≠ merged.addr → x.addr ∉ st'.freeList) := by
  have hndfl := freeList_nodup st hInv
  have hndaddr := blocks_addr_nodup st hInv
  have hPsh : P = [] ∨ ∃ pp, P = [pp] := by
    cases P with
    | nil => exact Or.inl rfl
    | cons x xs =>
      cases xs with
      | nil => exact Or.inr ⟨x, rfl⟩
      | cons y ys =>
        exfalso
        simp only [List.length_cons] at hP1
        omega
  have hNsh : N = [] ∨ ∃ nn, N = [nn] := by
    cases N with
    | nil => exact Or.inl rfl
    | cons x xs =>
      cases xs with
      | nil => exact Or.inr ⟨x, rfl⟩
      | cons y ys =>
        exfalso
        simp only [List.length_cons] at hN1
        omega
  rcases hPsh with hPnil | ⟨pp, hPeq⟩
  · rcases hNsh with hNnil | ⟨nn, hNeq⟩
    · exfalso
      rcases hrun with h | h
      · exact h hPnil
      · exact h hNnil
    · -- P = [], N = [nn]: forward merge only
      subst hPnil
      subst hNeq
      have hdec2 : st.blocks = pre ++ b :: (nn :: post) := by
        rw [hdec]
        simp
      have hbmem : b ∈ st.blocks := by
        rw [hdec2]
        simp
      have hnnmem : nn ∈ st.blocks := by
        rw [hdec2]
        simp
      have hnnf := hN nn (by simp)
      obtain ⟨st', hrun', hcases⟩ := my_free_spec st pre (nn :: post) b hInv.1 hdec2 hbu
      rcases hcases with ⟨hpostF, hpreF, hst'⟩ | ⟨n, post2, heq, hnf, hpreF, hst'⟩ |
        ⟨pre0, q, heq, hqf, hpostF, hst'⟩ | ⟨pre0, q, n, post2, heqP, heqN, hqf, hnf, hst'⟩
      · exfalso
        have hc := hpostF nn (by simp)
        rw [hnnf] at hc
        exact absurd hc (by decide)
      · injection heq with h1 h2
        subst h1
        subst h2
        have hfl : st'.freeList = b.addr :: st.freeList.erase nn.addr := by
          rw [hst']
        refine ⟨st', ⟨b.addr, b.size + nn.size, true⟩, hrun', ?_, rfl, ?_, ?_, ?_⟩
        · rw [hst']
        · simp
        · rw [hfl]
          show (b.addr :: st.freeList.erase nn.addr).count b.addr = 1
          rw [List.count_cons_self]
          have hbnot : b.addr ∉ st.freeList := addr_not_in_freeList st hInv b hbmem hbu
          have hbnot2 : b.addr ∉ st.freeList.erase nn.addr :=
            fun hm => hbnot (List.mem_of_mem_erase hm)
          rw [List.count_eq_zero.mpr hbnot2]
        · intro x hx hne
          rw [hfl]
          simp only [List.nil_append, List.mem_cons, List.mem_singleton] at hx
          rcases hx with heqx | heqx | hx
          · rw [heqx] at hne
            exact absurd rfl hne
          · rw [heqx]
            show nn.addr ∉ b.addr :: st.freeList.erase nn.addr
            intro hm
            rcases List.mem_cons.mp hm with h1 | h1
            · have heqb := addr_inj st.blocks hndaddr nn b hnnmem hbmem h1
              rw [heqb, hbu] at hnnf
              exact absurd hnnf (by decide)
            · exact (List.Nodup.not_mem_erase hndfl) h1
          · cases hx
      · exfalso
        have hc := hPmax rfl q (by rw [heq, List.getLast?_concat]; exact rfl)
        rw [hqf] at hc
        exact absurd hc (by decide)
      · exfalso
        have hc := hPmax rfl q (by rw [heqP, List.getLast?_concat]; exact rfl)
        rw [hqf] at hc
        exact absurd hc (by decide)
  · rcases hNsh with hNnil | ⟨nn, hNeq⟩
    · -- P = [pp], N = []: backward merge only
      subst hPeq
      subst hNnil
      have hdec2 : st.blocks = (pre ++ [pp]) ++ b :: post := by
        rw [hdec]
        simp
      have hbmem : b ∈ st.blocks := by
        rw [hdec2]
        simp
      have hppmem : pp ∈ st.blocks := by
        rw [hdec2]
        simp
      have hppf := hP pp (by simp)
      obtain ⟨st', hrun', hcases⟩ := my_free_spec st (pre ++ [pp]) post b hInv.1 hdec2 hbu
      rcases hcases with ⟨hpostF, hpreF, hst'⟩ | ⟨n, post2, heq, hnf, hpreF, hst'⟩ |
        ⟨pre0, q, heq, hqf, hpostF, hst'⟩ | ⟨pre0, q, n, post2, heqP, heqN, hqf, hnf, hst'⟩
      · exfalso
        have hc := hpreF pp (by rw [List.getLast?_concat]; exact rfl)
        rw [hppf] at hc
        exact absurd hc (by decide)
      · exfalso
        have hc := hpreF pp (by rw [List.getLast?_concat]; exact rfl)
        rw [hppf] at hc
        exact absurd hc (by decide)
      · obtain ⟨hpre0, hq⟩ := List.append_inj' heq rfl
        injection hq with h1 h2
        subst hpre0
        subst h1
        have hfl : st'.freeList = st.freeList := by
          rw [hst']
        refine ⟨st', { pp with size := pp.size + b.size }, hrun', ?_, hppf, ?_, ?_, ?_⟩
        · rw [hst']
        · simp
        · rw [hfl]
          exact count_in_freeList st hInv pp hppmem hppf
        · intro x hx hne
          rw [hfl]
          simp only [List.cons_append, List.nil_append, List.mem_cons,
            List.not_mem_nil] at hx
          rcases hx with heqx | heqx | hx
          · rw [heqx] at hne
            exact absurd rfl hne
          · rw [heqx]
            exact addr_not_in_freeList st hInv b hbmem hbu
          · cases hx
      · exfalso
        have hc := hNmax rfl n (by rw [heqN]; exact rfl)
        rw [hnf] at hc
        exact absurd hc (by decide)
    · -- P = [pp], N = [nn]: merge both sides
      subst hPeq
      subst hNeq
      have hdec2 : st.blocks = (pre ++ [pp]) ++ b :: (nn :: post) := by
        rw [hdec]
        simp
      have hbmem : b ∈ st.blocks := by
        rw [hdec2]
        simp
      have hppmem : pp ∈ st.blocks := by
        rw [hdec2]
        simp
      have hnnmem : nn ∈ st.blocks := by
        rw [hdec2]
        simp
      have hppf := hP pp (by simp)
      have hnnf := hN nn (by simp)
      obtain ⟨st', hrun', hcases⟩ :=
        my_free_spec st (pre ++ [pp]) (nn :: post) b hInv.1 hdec2 hbu
      rcases hcases with ⟨hpostF, hpreF, hst'⟩ | ⟨n, post2, heq, hnf, hpreF, hst'⟩ |
        ⟨pre0, q, heq, hqf, hpostF, hst'⟩ | ⟨pre0, q, n, post2, heqP, heqN, hqf, hnf, hst'⟩
      · exfalso
        have hc := hpreF pp (by rw [List.getLast?_concat]; exact rfl)
        rw [hppf] at hc
        exact absurd hc (by decide)
      · exfalso
        have hc := hpreF pp (by rw [List.getLast?_concat]; exact rfl)
        rw [hppf] at hc
        exact absurd hc (by decide)
      · exfalso
        have hc := hpostF nn (by simp)
        rw [hnnf] at hc
        exact absurd hc (by decide)
      · obtain ⟨hpre0, hq⟩ := List.append_inj' heqP rfl
        injection hq with h1 h2
        injection heqN with h3 h4
        subst hpre0
        subst h1
        subst h3
        subst h4
        have hfl : st'.freeList = st.freeList.erase nn.addr := by
          rw [hst']
        have hppnn : pp.addr ≠ nn.addr := by
          intro hc
          have hnd2 := hndaddr
          rw [hdec2] at hnd2
          simp only [List.map_append, List.map_cons, List.map_nil] at hnd2
          rw [List.nodup_append] at hnd2
          have hm1 : pp.addr ∈ List.map Block.addr pre ++ [pp.addr] :=
            List.mem_append.mpr (Or.inr (List.mem_singleton.mpr rfl))
          have hm2 : pp.addr ∈ b.addr :: nn.addr :: List.map Block.addr post := by
            rw [hc]
            exact List.mem_cons.mpr (Or.inr (List.mem_cons_self _ _))
          exact hnd2.2.2 hm1 hm2
        refine ⟨st', { pp with size := pp.size + (b.size + nn.size) }, hrun',
          ?_, hppf, ?_, ?_, ?_⟩
        · rw [hst']
        · simp
          omega
        · rw [hfl]
          show (st.freeList.erase nn.addr).count pp.addr = 1
          rw [List.count_erase_of_ne hppnn]
          exact count_in_freeList st hInv pp hppmem hppf
        · intro x hx hne
          rw [hfl]
          simp only [List.cons_append, List.nil_append, List.mem_cons,
            List.not_mem_nil] at hx
          rcases hx with heqx | heqx | heqx | hx
          · rw [heqx] at hne
            exact absurd rfl hne
          · rw [heqx]
            intro hm
            exact addr_not_in_freeList st hInv b hbmem hbu (List.mem_of_mem_erase hm)
          · rw [heqx]
            exact List.Nodup.not_mem_erase hndfl
          · cases hx

theorem c5_witness :
    ∃ st' merged,
      my_free ⟨[⟨0, 48, true⟩, ⟨48, 32, false⟩, ⟨80, HEAP_SIZE - 80, true⟩],
          [0, 80], []⟩ (some ((48 + metadataSize : Nat) : Int)) = (st', none) ∧
      st'.blocks = [] ++ merged :: [] ∧
      merged.isFree = true ∧
      merged.size = ([(⟨0, 48, true⟩ : Block)].map Block.size).sum + 32 +
        ([(⟨80, HEAP_SIZE - 80, true⟩ : Block)].map Block.size).sum ∧
      st'.freeList.count merged.addr = 1 ∧
      (∀ x ∈ [(⟨0, 48, true⟩ : Block)] ++ (⟨48, 32, false⟩ : Block) ::
          [(⟨80, HEAP_SIZE - 80, true⟩ : Block)],
        x.addr ≠ merged.addr → x.addr ∉ st'.freeList) :=
  c5_coalescing
    ⟨[⟨0, 48, true⟩, ⟨48, 32, false⟩, ⟨80, HEAP_SIZE - 80, true⟩], [0, 80], []⟩
    [] [] [⟨0, 48, true⟩] [⟨80, HEAP_SIZE - 80, true⟩] ⟨48, 32, false⟩
    (by decide) rfl rfl (by decide) (by decide) (by decide) (by decide)
    (Or.inl (by decide)) (fun h => absurd h (by decide)) (fun h => absurd h (by decide))

end FreeListAlloc
